import Mathlib

/-!
Verification of the story-parser component (src/story_parser.py).

The parser is embedded shallowly over `List Char` (Python `str` is modelled as
a list of characters; the ASCII fragments of Python's `\w`, `\d`, `str.strip`,
`str.upper`, `str.lower` are modelled explicitly below).  Every definition is
translated from the source file, never from the specification text.
-/

/-- Whitespace set of Python's `str.strip()` (ASCII part): space, tab,
newline, carriage return, vertical tab, form feed. -/
def pyIsWs (c : Char) : Bool :=
  c.toNat == 32 || c.toNat == 9 || c.toNat == 10 || c.toNat == 13 ||
  c.toNat == 11 || c.toNat == 12

/-- Python `str.lower` on one character (ASCII model). -/
def pyLowerChar (c : Char) : Char :=
  if 65 ≤ c.toNat ∧ c.toNat ≤ 90 then Char.ofNat (c.toNat + 32) else c

/-- Python `str.upper` on one character (ASCII model); used for
`action[0].upper()` in `_generate_title`. -/
def pyUpperChar (c : Char) : Char :=
  if 97 ≤ c.toNat ∧ c.toNat ≤ 122 then Char.ofNat (c.toNat - 32) else c

/-- Word character of the regex class `\w` (ASCII model):
letters, digits and underscore. -/
def isWordChar (c : Char) : Bool :=
  c.isAlphanum || c == '_'

/-- Left strip: drop leading whitespace. -/
def lstripL (l : List Char) : List Char :=
  l.dropWhile pyIsWs

/-- Right strip: drop trailing whitespace. -/
def rstripL (l : List Char) : List Char :=
  l.rdropWhile pyIsWs

/-- Python `str.strip()`: drop leading and trailing whitespace. -/
def pyStripL (l : List Char) : List Char :=
  rstripL (lstripL l)

/-- Python `s.split(sep)` for a one-character separator. -/
def splitOnChar (sep : Char) : List Char → List (List Char)
  | [] => [[]]
  | c :: cs =>
    match splitOnChar sep cs with
    | [] => [[]]
    | r :: rs => if c = sep then [] :: r :: rs else (c :: r) :: rs

/-- Python `'\n'.join(parts)`. -/
def joinL : List (List Char) → List Char
  | [] => []
  | [l] => l
  | l :: ls => l ++ '\n' :: joinL ls

/-- Fuelled recursion behind `removeAll`; the fuel only serves structural
termination and is irrelevant as soon as it bounds the length (see
`removeAll_cons`). -/
def removeAllF (pat : List Char) : Nat → List Char → List Char
  | _, [] => []
  | 0, s => s
  | fuel + 1, c :: cs =>
    if pat ≠ [] ∧ pat.isPrefixOf (c :: cs) then
      removeAllF pat fuel ((c :: cs).drop pat.length)
    else
      c :: removeAllF pat fuel cs

/-- Python `s.replace(pat, '')`: remove every non-overlapping occurrence of
`pat`, scanning left to right (used for `epic_line.replace('EPIC:', '')`). -/
def removeAll (pat : List Char) (s : List Char) : List Char :=
  removeAllF pat s.length s

/-- Python `int(...)` on a string of decimal digits. -/
def digitsToNat (ds : List Char) : Nat :=
  ds.foldl (fun n c => n * 10 + (c.toNat - 48)) 0

/-- Match of the token regex `op(good+)cl` (such as `\[(\w+)\]` or
`\{(\d+)\}`) anchored at the head of `s`: returns the captured group and the
length of the whole match.  A match needs `op`, then a non-empty maximal run
of `good` characters, then `cl` (no shorter run can succeed because a `good`
character can never equal `cl` at a backtracking step). -/
def tokAt (op cl : Char) (good : Char → Bool) : List Char → Option (List Char × Nat)
  | [] => none
  | c :: rest =>
    if c = op then
      match rest.drop (rest.takeWhile good).length with
      | c' :: _ =>
        if c' = cl ∧ rest.takeWhile good ≠ [] then
          some (rest.takeWhile good, (rest.takeWhile good).length + 2)
        else none
      | [] => none
    else none

/-- Embedding of `re.search(pattern, s)` for the token patterns: returns the
captured group of the leftmost match. -/
def searchTok (op cl : Char) (good : Char → Bool) : List Char → Option (List Char)
  | [] => none
  | c :: cs =>
    match tokAt op cl good (c :: cs) with
    | some (w, _) => some w
    | none => searchTok op cl good cs

/-- Fuelled recursion behind `subTok`; the fuel only serves structural
termination and is irrelevant as soon as it bounds the length (see
`subTok_cons`). -/
def subTokF (op cl : Char) (good : Char → Bool) : Nat → List Char → List Char
  | _, [] => []
  | 0, s => s
  | fuel + 1, c :: cs =>
    match tokAt op cl good (c :: cs) with
    | some (_, k) => subTokF op cl good fuel ((c :: cs).drop k)
    | none => c :: subTokF op cl good fuel cs

/-- Embedding of `re.sub(pattern, '', s)` for the token patterns: removes
every non-overlapping match, scanning left to right. -/
def subTok (op cl : Char) (good : Char → Bool) (s : List Char) : List Char :=
  subTokF op cl good s.length s

/-- Match of `I want to ([^,]+)` (with `re.IGNORECASE`) anchored at the head
of `s`: the ten-character phrase compared case-insensitively, then a
non-empty greedy run of non-comma characters as the captured group. -/
def wantAt (s : List Char) : Option (List Char) :=
  if (s.take 10).map pyLowerChar = ("i want to ".data) then
    match s.drop 10 with
    | [] => none
    | c :: t => if c = ',' then none else some ((c :: t).takeWhile (fun x => x ≠ ','))
  else none

/-- Embedding of `re.search(r'I want to ([^,]+)', s, re.IGNORECASE)`:
captured group of the leftmost match. -/
def searchWant : List Char → Option (List Char)
  | [] => none
  | c :: cs =>
    match wantAt (c :: cs) with
    | some g => some g
    | none => searchWant cs

/-- One parsed story line (class `UserStory`). -/
structure UserStory where
  title : List Char
  description : List Char
  priority : Option (List Char)
  story_points : Option Nat
deriving DecidableEq, Repr

/-- A named group of stories (class `Epic`). -/
structure Epic where
  title : List Char
  stories : List UserStory
deriving DecidableEq, Repr

/-- Python `action[0].upper() + action[1:]` for non-empty `action`. -/
def capFirst : List Char → List Char
  | [] => []
  | c :: t => pyUpperChar c :: t

/-- Truncation used by `_generate_title`: first 57 characters plus an
ellipsis when longer than 60. -/
def clip60 (t : List Char) : List Char :=
  if 60 < t.length then t.take 57 ++ ("...".data) else t

/-- Embedding of `StoryParser._generate_title`. -/
def generateTitle (description : List Char) : List Char :=
  match searchWant description with
  | some g =>
    let action := pyStripL g
    let title := if action.isEmpty then description else capFirst action
    clip60 title
  | none => clip60 description

/-- Embedding of `StoryParser._parse_story` (the argument is the whole story
line, dash included, as in the source). -/
def parseStory (line : List Char) : Option UserStory :=
  let content := pyStripL (line.drop 1)
  if content.isEmpty then none
  else
    let pm := searchTok '[' ']' isWordChar content
    let content1 :=
      match pm with
      | some _ => pyStripL (subTok '[' ']' isWordChar content)
      | none => content
    let sm := searchTok '{' '}' Char.isDigit content1
    let content2 :=
      match sm with
      | some _ => pyStripL (subTok '{' '}' Char.isDigit content1)
      | none => content1
    some { title := generateTitle content2, description := content2,
           priority := pm, story_points := sm.map digitsToNat }

/-- Per-line story extraction of `_parse_epic_section`'s loop body: strip the
line, and parse it when it starts with the list-item marker. -/
def lineStory (l : List Char) : Option UserStory :=
  let t := pyStripL l
  if ("-".data).isPrefixOf t then parseStory t else none

/-- Embedding of `StoryParser._parse_epic_section`. -/
def parseEpicSection (sec : List Char) : Option Epic :=
  match splitOnChar '\n' (pyStripL sec) with
  | [] => none
  | epicLine :: rest =>
    if ("EPIC:".data).isPrefixOf epicLine then
      some { title := pyStripL (removeAll ("EPIC:".data) epicLine),
             stories := rest.filterMap lineStory }
    else none

/-- Header test of the segmentation loop: does a stripped line start with
the epic marker. -/
def isHdr (t : List Char) : Bool :=
  ("EPIC:".data).isPrefixOf t

/-- Skip test of the segmentation loop: empty line or comment. -/
def isSkip (t : List Char) : Bool :=
  t.isEmpty || ("#".data).isPrefixOf t

/-- The loop of `StoryParser._split_into_epics`, with the section list and
current section as explicit accumulators. -/
def segGo : List (List Char) → List (List Char) → List (List Char) → List (List Char)
  | [], secs, cur => if cur.isEmpty then secs else secs ++ [joinL cur]
  | l :: ls, secs, cur =>
    let t := pyStripL l
    if isSkip t then segGo ls secs cur
    else if isHdr t then
      segGo ls (if cur.isEmpty then secs else secs ++ [joinL cur]) [t]
    else segGo ls secs (cur ++ [t])

/-- Embedding of `StoryParser._split_into_epics`. -/
def splitIntoEpics (content : List Char) : List (List Char) :=
  segGo (splitOnChar '\n' (pyStripL content)) [] []

/-- Pure part of `StoryParser.parse_file`: the transformation applied to the
decoded text (sections, per-section parse, drop epics without stories). -/
def parseContent (content : List Char) : List Epic :=
  (splitIntoEpics content).filterMap fun sec =>
    match parseEpicSection sec with
    | some e => if e.stories.isEmpty then none else some e
    | none => none

/-- Error raised when the input cannot be opened or read (the spec's
`SourceUnavailable`; in the source, the re-raised exceptions of the
`open`/`read` block). -/
inductive SourceError where
  | sourceUnavailable
deriving DecidableEq, Repr

/-- Embedding of `StoryParser.parse_file`.  The file read is modelled by its
result: `none` when the input cannot be opened or read, `some content` when
it can.  Everything after the read is the pure `parseContent`. -/
def parseFile (readResult : Option (List Char)) : Except SourceError (List Epic) :=
  match readResult with
  | none => Except.error SourceError.sourceUnavailable
  | some content => Except.ok (parseContent content)

/-- Stripped, skip-filtered lines of the document, as consumed by the
segmentation loop. -/
def procLines (content : List Char) : List (List Char) :=
  ((splitOnChar '\n' (pyStripL content)).map pyStripL).filter (fun t => !(isSkip t))

/-- Specification view of segmentation: split the processed lines into the
leading headerless lines and the header-started groups. -/
def breakSections : List (List Char) → List (List Char) × List (List (List Char))
  | [] => ([], [])
  | t :: ts =>
    let r := breakSections ts
    if isHdr t then ([], (t :: r.1) :: r.2) else (t :: r.1, r.2)

/-- Specification view of one header-started group: epic title from the
header line, stories from the body lines, dropped when no story parses. -/
def mkEpicG : List (List Char) → Option Epic
  | [] => none
  | h :: body =>
    let e : Epic := { title := pyStripL (removeAll ("EPIC:".data) h),
                      stories := body.filterMap lineStory }
    if e.stories.isEmpty then none else some e

/-- Python's substring test `pat in s` (used to state that a token text
remains, literally, inside a description). -/
def containsSeq (pat : List Char) : List Char → Bool
  | [] => pat.isEmpty
  | c :: cs => pat.isPrefixOf (c :: cs) || containsSeq pat cs

/-- First line of a section as `_parse_epic_section` sees it. -/
def firstLineOf (sec : List Char) : List Char :=
  (splitOnChar '\n' (pyStripL sec)).headD []

/-! ### Facts about whitespace stripping -/

theorem dropWhile_append_cons {α} {p : α → Bool} {x : List α} {c : α} {r : List α}
    (hc : p c = false) :
    List.dropWhile p (x ++ c :: r) = List.dropWhile p x ++ c :: r := by
  rw [List.dropWhile_append]
  split
  · next h =>
    rw [List.isEmpty_iff.mp h, List.nil_append, List.dropWhile_cons_of_neg (by simp [hc])]
  · rfl

theorem dropWhile_dropWhile_append {α} {p : α → Bool} (a b : List α) :
    List.dropWhile p (List.dropWhile p a ++ b) = List.dropWhile p (a ++ b) := by
  induction a with
  | nil => simp
  | cons x a ih =>
    by_cases h : p x
    · rw [List.dropWhile_cons_of_pos h, List.cons_append, List.dropWhile_cons_of_pos h, ih]
    · simp only [List.dropWhile_cons_of_neg h, List.cons_append]

theorem rdropWhile_append {α} {p : α → Bool} (a b : List α) :
    List.rdropWhile p (a ++ b) =
      if (List.rdropWhile p b).isEmpty then List.rdropWhile p a
      else a ++ List.rdropWhile p b := by
  have hkey : (List.rdropWhile p b).isEmpty = (List.dropWhile p b.reverse).isEmpty := by
    rcases hb : List.dropWhile p b.reverse with _ | ⟨x, xs⟩ <;>
      simp [List.rdropWhile, hb, List.isEmpty_iff]
  by_cases hb : (List.dropWhile p b.reverse).isEmpty
  · rw [if_pos (by rw [hkey]; exact hb)]
    show (List.dropWhile p (a ++ b).reverse).reverse = (List.dropWhile p a.reverse).reverse
    rw [List.reverse_append, List.dropWhile_append, if_pos hb]
  · rw [if_neg (by rw [hkey]; exact hb)]
    show (List.dropWhile p (a ++ b).reverse).reverse = a ++ (List.dropWhile p b.reverse).reverse
    rw [List.reverse_append, List.dropWhile_append, if_neg hb, List.reverse_append,
      List.reverse_reverse]

theorem rdropWhile_append_rdropWhile {α} {p : α → Bool} (y b : List α) :
    List.rdropWhile p (y ++ List.rdropWhile p b) = List.rdropWhile p (y ++ b) := by
  simp only [List.rdropWhile, List.reverse_append, List.reverse_reverse]
  rw [dropWhile_dropWhile_append]

theorem mem_of_mem_pyStripL {c : Char} {l : List Char} (h : c ∈ pyStripL l) : c ∈ l := by
  have h1 : c ∈ List.dropWhile pyIsWs l :=
    ( List.rdropWhile_prefix pyIsWs (List.dropWhile pyIsWs l)).sublist.subset h
  exact (List.dropWhile_suffix pyIsWs).sublist.subset h1

theorem pyStripL_eq_nil_iff {l : List Char} :
    pyStripL l = [] ↔ ∀ c ∈ l, pyIsWs c = true := by
  constructor
  · intro h
    have h2 : ∀ x ∈ List.dropWhile pyIsWs l, pyIsWs x := List.rdropWhile_eq_nil_iff.mp h
    by_cases hd : List.dropWhile pyIsWs l = []
    · exact List.dropWhile_eq_nil_iff.mp hd
    · exfalso
      have hh := List.head_dropWhile_not pyIsWs l hd
      exact absurd (h2 _ (List.head_mem hd)) (by simp [hh])
  · intro h
    apply List.rdropWhile_eq_nil_iff.mpr
    intro x hx
    exact h x ((List.dropWhile_suffix pyIsWs).sublist.subset hx)

theorem pyStripL_head?_not {l : List Char} {c : Char}
    (h : (pyStripL l).head? = some c) : pyIsWs c = false := by
  obtain ⟨u, hu⟩ := List.rdropWhile_prefix pyIsWs (List.dropWhile pyIsWs l)
  have hps : pyStripL l ++ u = List.dropWhile pyIsWs l := hu
  rcases hps2 : pyStripL l with _ | ⟨c', t⟩
  · rw [hps2] at h; simp at h
  · rw [hps2] at h hps
    have hcc : c' = c := by simpa using h
    subst hcc
    have h2 := List.head?_dropWhile_not pyIsWs l
    rw [← hps] at h2
    simpa using h2

theorem pyStripL_getLast?_not {l : List Char} {c : Char}
    (h : (pyStripL l).getLast? = some c) : pyIsWs c = false := by
  have h1 : (pyStripL l).reverse.head? = some c := by rw [List.head?_reverse]; exact h
  have h1' : (List.dropWhile pyIsWs (List.dropWhile pyIsWs l).reverse).head? = some c := by
    have : (pyStripL l).reverse = List.dropWhile pyIsWs (List.dropWhile pyIsWs l).reverse := by
      simp [pyStripL, rstripL, lstripL, List.rdropWhile]
    rwa [this] at h1
  have h2 := List.head?_dropWhile_not pyIsWs (List.dropWhile pyIsWs l).reverse
  rw [h1'] at h2
  exact h2

theorem dropWhile_eq_self_of_head {α} {p : α → Bool} {l : List α}
    (h : ∀ c, l.head? = some c → p c = false) : List.dropWhile p l = l := by
  cases l with
  | nil => rfl
  | cons c t => exact List.dropWhile_cons_of_neg (by simp [h c rfl])

theorem rdropWhile_eq_self_of_getLast {α} {p : α → Bool} {l : List α}
    (h : ∀ c, l.getLast? = some c → p c = false) : List.rdropWhile p l = l := by
  rw [List.rdropWhile_eq_self_iff]
  intro hl
  have := h (l.getLast hl) (List.getLast?_eq_getLast l hl)
  simp [this]

theorem pyStripL_eq_self {l : List Char}
    (hh : ∀ c, l.head? = some c → pyIsWs c = false)
    (hl : ∀ c, l.getLast? = some c → pyIsWs c = false) :
    pyStripL l = l := by
  show List.rdropWhile pyIsWs (List.dropWhile pyIsWs l) = l
  rw [dropWhile_eq_self_of_head hh, rdropWhile_eq_self_of_getLast hl]

theorem pyStripL_idem (l : List Char) : pyStripL (pyStripL l) = pyStripL l :=
  pyStripL_eq_self (fun _ hc => pyStripL_head?_not hc) (fun _ hc => pyStripL_getLast?_not hc)

theorem pyStripL_concat {a M b : List Char}
    (hM : M ≠ [])
    (hh : ∀ c, M.head? = some c → pyIsWs c = false)
    (hl : ∀ c, M.getLast? = some c → pyIsWs c = false) :
    pyStripL (a ++ M ++ b) = lstripL a ++ M ++ rstripL b := by
  rcases M with _ | ⟨c, t⟩
  · exact absurd rfl hM
  have hc : pyIsWs c = false := hh c rfl
  show List.rdropWhile pyIsWs (List.dropWhile pyIsWs (a ++ (c :: t) ++ b)) = _
  have h1 : List.dropWhile pyIsWs (a ++ (c :: t) ++ b) =
      List.dropWhile pyIsWs a ++ ((c :: t) ++ b) := by
    rw [List.append_assoc]
    exact dropWhile_append_cons hc
  rw [h1]
  have hMr : List.rdropWhile pyIsWs (c :: t) = c :: t :=
    rdropWhile_eq_self_of_getLast hl
  rw [← List.append_assoc, rdropWhile_append]
  split
  · next hemp =>
    rw [List.isEmpty_iff] at hemp
    rw [rdropWhile_append]
    rw [if_neg (by simp [List.isEmpty_iff, hMr])]
    show _ = lstripL a ++ (c :: t) ++ rstripL b
    rw [hMr]
    have : rstripL b = [] := hemp
    rw [this]
    simp [lstripL]
  · next hemp =>
    show _ = lstripL a ++ (c :: t) ++ rstripL b
    simp [lstripL, rstripL, List.append_assoc]

theorem strip_core (b : List Char) :
    List.rdropWhile pyIsWs (List.dropWhile pyIsWs (List.rdropWhile pyIsWs b)) =
    List.rdropWhile pyIsWs (List.dropWhile pyIsWs b) := by
  rcases hd : List.dropWhile pyIsWs b with _ | ⟨d, D⟩
  · have hb : ∀ x ∈ b, pyIsWs x := List.dropWhile_eq_nil_iff.mp hd
    have hrb : List.rdropWhile pyIsWs b = [] := List.rdropWhile_eq_nil_iff.mpr hb
    rw [hrb]
    simp
  · have hdneg : pyIsWs d = false := by
      have h0 := List.head?_dropWhile_not pyIsWs b
      rw [hd] at h0
      simpa using h0
    have hb : List.takeWhile pyIsWs b ++ (d :: D) = b := by
      rw [← hd, List.takeWhile_append_dropWhile]
    have hrd : List.rdropWhile pyIsWs (d :: D) ≠ [] := by
      intro hnil
      have := List.rdropWhile_eq_nil_iff.mp hnil d (by simp)
      simp [hdneg] at this
    have hW : ∀ x ∈ List.takeWhile pyIsWs b, pyIsWs x = true :=
      fun _ hx => List.mem_takeWhile_imp hx
    have h1 : List.rdropWhile pyIsWs b =
        List.takeWhile pyIsWs b ++ List.rdropWhile pyIsWs (d :: D) := by
      conv_lhs => rw [← hb]
      rw [rdropWhile_append, if_neg (by simp [List.isEmpty_iff, hrd])]
    obtain ⟨u, hu⟩ := List.rdropWhile_prefix pyIsWs (d :: D)
    rcases hr : List.rdropWhile pyIsWs (d :: D) with _ | ⟨e, E⟩
    · exact absurd hr hrd
    · rw [hr] at hu
      have he : e = d := by
        have := congrArg List.head? hu
        simpa using this
      have h2 : List.dropWhile pyIsWs (List.rdropWhile pyIsWs b) =
          List.rdropWhile pyIsWs (d :: D) := by
        rw [h1, hr, he, dropWhile_append_cons hdneg, List.dropWhile_eq_nil_iff.mpr hW,
          List.nil_append, ← he]
      rw [h2, List.rdropWhile_idempotent, hr]

theorem pyStripL_lstrip_append (a y : List Char) :
    pyStripL (lstripL a ++ y) = pyStripL (a ++ y) := by
  show List.rdropWhile _ (List.dropWhile _ (List.dropWhile _ a ++ y)) = _
  rw [dropWhile_dropWhile_append]
  rfl

theorem pyStripL_append_rstrip (y b : List Char) :
    pyStripL (y ++ rstripL b) = pyStripL (y ++ b) := by
  show List.rdropWhile pyIsWs (List.dropWhile pyIsWs (y ++ List.rdropWhile pyIsWs b)) =
    List.rdropWhile pyIsWs (List.dropWhile pyIsWs (y ++ b))
  rw [List.dropWhile_append, List.dropWhile_append]
  cases hy : (List.dropWhile pyIsWs y).isEmpty
  · simp only [Bool.false_eq_true, if_false]
    exact rdropWhile_append_rdropWhile _ _
  · simp only [if_true]
    exact strip_core b

/-! ### Facts about the token patterns and their fuelled evaluators -/

theorem tokAt_pos {op cl : Char} {good : Char → Bool} {s w k}
    (h : tokAt op cl good s = some (w, k)) : 0 < k := by
  rcases s with _ | ⟨c, rest⟩
  · exact absurd h (by simp [tokAt])
  · rw [tokAt] at h
    split at h
    · split at h
      · split at h
        · cases h
          omega
        · exact absurd h (by simp)
      · exact absurd h (by simp)
    · exact absurd h (by simp)

theorem subTokF_le {op cl : Char} {good : Char → Bool} :
    ∀ {f1 f2 : Nat} {s : List Char}, s.length ≤ f1 → s.length ≤ f2 →
      subTokF op cl good f1 s = subTokF op cl good f2 s := by
  intro f1
  induction f1 with
  | zero =>
    intro f2 s h1 _
    have : s = [] := List.eq_nil_of_length_eq_zero (Nat.le_zero.mp h1)
    subst this
    cases f2 <;> rfl
  | succ f1 ih =>
    intro f2 s h1 h2
    rcases s with _ | ⟨c, cs⟩
    · cases f2 <;> rfl
    · rcases f2 with _ | f2
      · simp at h2
      · rw [subTokF, subTokF]
        rcases h : tokAt op cl good (c :: cs) with _ | ⟨w, k⟩
        · have hcs : cs.length ≤ f1 := by simp at h1; omega
          have hcs2 : cs.length ≤ f2 := by simp at h2; omega
          show c :: subTokF op cl good f1 cs = c :: subTokF op cl good f2 cs
          rw [ih hcs hcs2]
        · have hk := tokAt_pos h
          have hlen : ((c :: cs).drop k).length ≤ f1 := by
            simp only [List.length_drop, List.length_cons]
            simp at h1
            omega
          have hlen2 : ((c :: cs).drop k).length ≤ f2 := by
            simp only [List.length_drop, List.length_cons]
            simp at h2
            omega
          show subTokF op cl good f1 ((c :: cs).drop k) =
            subTokF op cl good f2 ((c :: cs).drop k)
          exact ih hlen hlen2

theorem subTok_cons (op cl : Char) (good : Char → Bool) (c : Char) (cs : List Char) :
    subTok op cl good (c :: cs) =
      match tokAt op cl good (c :: cs) with
      | some (_, k) => subTok op cl good ((c :: cs).drop k)
      | none => c :: subTok op cl good cs := by
  show subTokF op cl good (c :: cs).length (c :: cs) = _
  rw [List.length_cons, subTokF]
  rcases h : tokAt op cl good (c :: cs) with _ | ⟨w, k⟩
  · rfl
  · have hk := tokAt_pos h
    exact subTokF_le (by simp only [List.length_drop, List.length_cons]; omega) (le_refl _)

theorem removeAllF_le {pat : List Char} :
    ∀ {f1 f2 : Nat} {s : List Char}, s.length ≤ f1 → s.length ≤ f2 →
      removeAllF pat f1 s = removeAllF pat f2 s := by
  intro f1
  induction f1 with
  | zero =>
    intro f2 s h1 _
    have : s = [] := List.eq_nil_of_length_eq_zero (Nat.le_zero.mp h1)
    subst this
    cases f2 <;> rfl
  | succ f1 ih =>
    intro f2 s h1 h2
    rcases s with _ | ⟨c, cs⟩
    · cases f2 <;> rfl
    · rcases f2 with _ | f2
      · simp at h2
      · rw [removeAllF, removeAllF]
        split
        · next hp =>
            have hplen : 0 < pat.length := List.length_pos.mpr hp.1
            have hlen : ((c :: cs).drop pat.length).length ≤ f1 := by
              simp only [List.length_drop, List.length_cons]
              simp at h1
              omega
            have hlen2 : ((c :: cs).drop pat.length).length ≤ f2 := by
              simp only [List.length_drop, List.length_cons]
              simp at h2
              omega
            rw [ih hlen hlen2]
        · next =>
            have hcs : cs.length ≤ f1 := by simp at h1; omega
            have hcs2 : cs.length ≤ f2 := by simp at h2; omega
            rw [ih hcs hcs2]

theorem removeAll_cons (pat : List Char) (c : Char) (cs : List Char) :
    removeAll pat (c :: cs) =
      if pat ≠ [] ∧ pat.isPrefixOf (c :: cs) then
        removeAll pat ((c :: cs).drop pat.length)
      else c :: removeAll pat cs := by
  show removeAllF pat (c :: cs).length (c :: cs) = _
  rw [List.length_cons, removeAllF]
  split
  · next hp =>
    have hplen : 0 < pat.length := List.length_pos.mpr hp.1
    exact removeAllF_le (by simp only [List.length_drop, List.length_cons]; omega) (le_refl _)
  · rfl

theorem takeWhile_all_append {good : Char → Bool} {w : List Char}
    (hall : ∀ c ∈ w, good c = true) {c0 : Char} (hc0 : good c0 = false) (b : List Char) :
    (w ++ c0 :: b).takeWhile good = w := by
  induction w with
  | nil => simp [List.takeWhile_cons_of_neg, hc0]
  | cons x xs ih =>
    rw [List.cons_append, List.takeWhile_cons_of_pos (hall x (by simp))]
    rw [ih (fun c hc => hall c (List.mem_cons_of_mem _ hc))]

theorem tokAt_token {op cl : Char} {good : Char → Bool} {w b : List Char}
    (hw : w ≠ []) (hall : ∀ c ∈ w, good c = true) (hcl : good cl = false) :
    tokAt op cl good (op :: (w ++ cl :: b)) = some (w, w.length + 2) := by
  have ht : (w ++ cl :: b).takeWhile good = w := takeWhile_all_append hall hcl b
  have hd : (w ++ cl :: b).drop w.length = cl :: b := List.drop_left w (cl :: b)
  rw [tokAt, if_pos rfl, ht, hd]
  show (if cl = cl ∧ w ≠ [] then some (w, w.length + 2) else none) = some (w, w.length + 2)
  rw [if_pos ⟨rfl, hw⟩]

theorem tokAt_none_of_not_op {op cl : Char} {good : Char → Bool} {c : Char} {cs : List Char}
    (hc : c ≠ op) : tokAt op cl good (c :: cs) = none := by
  rw [tokAt, if_neg hc]

theorem tokAt_bad_empty {op cl : Char} {good : Char → Bool} {b : List Char}
    (hcl : good cl = false) :
    tokAt op cl good (op :: cl :: b) = none := by
  rw [tokAt, if_pos rfl]
  have ht : (cl :: b).takeWhile good = [] := List.takeWhile_cons_of_neg (by simp [hcl])
  rw [ht]
  simp

theorem tokAt_bad_inner {op cl : Char} {good : Char → Bool} {u v b : List Char} {c0 : Char}
    (hu : ∀ c ∈ u, good c = true) (hc0 : good c0 = false) (hne : c0 ≠ cl) :
    tokAt op cl good (op :: (u ++ c0 :: v ++ cl :: b)) = none := by
  rw [tokAt, if_pos rfl]
  have ht : (u ++ c0 :: v ++ cl :: b).takeWhile good = u := by
    rw [List.append_assoc] at *
    exact takeWhile_all_append hu hc0 _
  rw [ht]
  have hd : (u ++ c0 :: v ++ cl :: b).drop u.length = c0 :: (v ++ cl :: b) := by
    rw [List.append_assoc]
    exact List.drop_left u _
  rw [hd]
  simp [hne]

theorem searchTok_cons_none {op cl : Char} {good : Char → Bool} {c : Char} {cs : List Char}
    (h : tokAt op cl good (c :: cs) = none) :
    searchTok op cl good (c :: cs) = searchTok op cl good cs := by
  rw [searchTok, h]

theorem searchTok_append_not_op {op cl : Char} {good : Char → Bool} {x : List Char}
    (hx : op ∉ x) (y : List Char) :
    searchTok op cl good (x ++ y) = searchTok op cl good y := by
  induction x with
  | nil => rfl
  | cons c cs ih =>
    have hc : c ≠ op := fun h => hx (by simp [h])
    have hcs : op ∉ cs := fun h => hx (List.mem_cons_of_mem _ h)
    rw [List.cons_append, searchTok, tokAt_none_of_not_op hc]
    exact ih hcs

theorem searchTok_none_of_not_mem {op cl : Char} {good : Char → Bool} {l : List Char}
    (h : op ∉ l) : searchTok op cl good l = none := by
  have h0 := @searchTok_append_not_op op cl good l h []
  rw [List.append_nil] at h0
  exact h0

theorem searchTok_token {op cl : Char} {good : Char → Bool} {x w b : List Char}
    (hx : op ∉ x) (hw : w ≠ []) (hall : ∀ c ∈ w, good c = true) (hcl : good cl = false) :
    searchTok op cl good (x ++ op :: (w ++ cl :: b)) = some w := by
  rw [searchTok_append_not_op hx, searchTok, tokAt_token hw hall hcl]

theorem subTok_append_not_op {op cl : Char} {good : Char → Bool} {x : List Char}
    (hx : op ∉ x) (y : List Char) :
    subTok op cl good (x ++ y) = x ++ subTok op cl good y := by
  induction x with
  | nil => rfl
  | cons c cs ih =>
    have hc : c ≠ op := fun h => hx (by simp [h])
    have hcs : op ∉ cs := fun h => hx (List.mem_cons_of_mem _ h)
    rw [List.cons_append, subTok_cons, tokAt_none_of_not_op hc]
    show c :: subTok op cl good (cs ++ y) = c :: cs ++ (subTok op cl good y)
    rw [ih hcs]
    rfl

theorem subTok_eq_self_of_not_mem {op cl : Char} {good : Char → Bool} {l : List Char}
    (h : op ∉ l) : subTok op cl good l = l := by
  have h0 := @subTok_append_not_op op cl good l h []
  rw [List.append_nil] at h0
  rw [h0]
  show l ++ ([] : List Char) = l
  simp

theorem subTok_token {op cl : Char} {good : Char → Bool} {x w b : List Char}
    (hx : op ∉ x) (hw : w ≠ []) (hall : ∀ c ∈ w, good c = true) (hcl : good cl = false) :
    subTok op cl good (x ++ op :: (w ++ cl :: b)) = x ++ subTok op cl good b := by
  rw [subTok_append_not_op hx, subTok_cons, tokAt_token hw hall hcl]
  have hd : (op :: (w ++ cl :: b)).drop (w.length + 2) = b := by
    show (op :: (w ++ cl :: b)).drop (w.length + 1 + 1) = b
    rw [List.drop_succ_cons]
    have : w ++ cl :: b = (w ++ [cl]) ++ b := by simp
    rw [this]
    exact List.drop_left' (by simp)
  show x ++ subTok op cl good ((op :: (w ++ cl :: b)).drop (w.length + 2)) =
    x ++ subTok op cl good b
  rw [hd]

/-! ### Membership in the parser's output -/

theorem parseContent_mem {content : List Char} {e : Epic} (h : e ∈ parseContent content) :
    ∃ sec ∈ splitIntoEpics content, parseEpicSection sec = some e ∧ e.stories ≠ [] := by
  unfold parseContent at h
  rw [List.mem_filterMap] at h
  obtain ⟨sec, hsec, hf⟩ := h
  refine ⟨sec, hsec, ?_⟩
  rcases hp : parseEpicSection sec with _ | e'
  · rw [hp] at hf
    simp at hf
  · rw [hp] at hf
    have hf' : (if e'.stories.isEmpty then none else some e') = some e := hf
    by_cases hs : e'.stories.isEmpty
    · rw [if_pos hs] at hf'
      simp at hf'
    · rw [if_neg hs] at hf'
      have he : e' = e := by simpa using hf'
      subst he
      exact ⟨rfl, by simpa [List.isEmpty_iff] using hs⟩

/-- C6: for every input text, every Epic in the sequence returned by
`parse_file` contains at least one story; an epic header followed by zero
valid item lines never contributes an Epic to the result. -/
theorem C6_epic_nonempty (content : List Char) (e : Epic)
    (h : e ∈ parseContent content) : e.stories ≠ [] := by
  obtain ⟨_, _, _, hne⟩ := parseContent_mem h
  exact hne

theorem C6_witness :
    ({ title := "A".data,
       stories := [{ title := "x".data, description := "x".data,
                     priority := none, story_points := none }] } : Epic).stories ≠ [] :=
  C6_epic_nonempty ("EPIC: A\n- x".data) _ (by decide)

/-- C7: `parse_file` fails with `SourceUnavailable` exactly when the input
cannot be opened or read (modelled by the read result being `none`),
producing no partial output; on any readable text it returns `ok` — the pure
parse is total, so structural irregularities never cause a failure. -/
theorem C7_source_unavailable :
    (∀ src : Option (List Char),
      (∃ err, parseFile src = Except.error err) ↔ src = none) ∧
    parseFile none = Except.error SourceError.sourceUnavailable ∧
    ∀ content : List Char, parseFile (some content) = Except.ok (parseContent content) := by
  refine ⟨?_, rfl, fun _ => rfl⟩
  intro src
  constructor
  · rintro ⟨err, herr⟩
    cases src with
    | none => rfl
    | some c => simp [parseFile] at herr
  · rintro rfl
    exact ⟨SourceError.sourceUnavailable, rfl⟩

/-! ### Substring membership and story-line evaluation -/

theorem containsSeq_iff {pat s : List Char} :
    containsSeq pat s = true ↔ ∃ x y, s = x ++ (pat ++ y) := by
  induction s with
  | nil =>
    rw [containsSeq]
    constructor
    · intro h
      have hp : pat = [] := by simpa [List.isEmpty_iff] using h
      exact ⟨[], [], by simp [hp]⟩
    · rintro ⟨x, y, hxy⟩
      rcases List.append_eq_nil.mp hxy.symm with ⟨_, h2⟩
      have hp : pat = [] := (List.append_eq_nil.mp h2).1
      simp [hp, List.isEmpty_iff]
  | cons c cs ih =>
    rw [containsSeq]
    constructor
    · intro h
      rcases (by simpa using h :
          pat.isPrefixOf (c :: cs) = true ∨ containsSeq pat cs = true) with hpre | hc
      · obtain ⟨t, ht⟩ := List.isPrefixOf_iff_prefix.mp hpre
        exact ⟨[], t, by simp [← ht]⟩
      · obtain ⟨x, y, hxy⟩ := ih.mp hc
        exact ⟨c :: x, y, by simp [hxy]⟩
    · rintro ⟨x, y, hxy⟩
      simp only [Bool.or_eq_true]
      rcases x with _ | ⟨x0, xs⟩
      · left
        rw [List.nil_append] at hxy
        exact List.isPrefixOf_iff_prefix.mpr ⟨y, hxy.symm⟩
      · right
        apply ih.mpr
        rw [List.cons_append] at hxy
        injection hxy with _ h2
        exact ⟨xs, y, h2⟩

theorem mem_of_containsSeq {c : Char} {pat s : List Char} (hc : c ∈ pat)
    (h : containsSeq pat s = true) : c ∈ s := by
  obtain ⟨x, y, rfl⟩ := containsSeq_iff.mp h
  simp [hc]

theorem containsSeq_eq_false {c : Char} {pat s : List Char} (hc : c ∈ pat)
    (hs : c ∉ s) : containsSeq pat s = false := by
  cases h : containsSeq pat s
  · rfl
  · exact absurd (mem_of_containsSeq hc h) hs

theorem mem_lstripL {c : Char} {l : List Char} (h : c ∈ lstripL l) : c ∈ l :=
  (List.dropWhile_sublist pyIsWs).subset h

theorem mem_rstripL {c : Char} {l : List Char} (h : c ∈ rstripL l) : c ∈ l :=
  ( List.rdropWhile_prefix pyIsWs l).sublist.subset h

theorem parseStory_no_tokens {line content' : List Char}
    (hstrip : pyStripL (line.drop 1) = content')
    (hne : content'.isEmpty = false)
    (hbr : searchTok '[' ']' isWordChar content' = none)
    (hbrc : searchTok '{' '}' Char.isDigit content' = none) :
    parseStory line = some { title := generateTitle content', description := content',
                             priority := none, story_points := none } := by
  simp only [parseStory, hstrip, hne, Bool.false_eq_true, if_false, hbr, hbrc,
    Option.map_none']

theorem parseStory_with_tokens {line content' c1 c2 w dd : List Char}
    (hstrip : pyStripL (line.drop 1) = content')
    (hne : content'.isEmpty = false)
    (hbr : searchTok '[' ']' isWordChar content' = some w)
    (hsub : pyStripL (subTok '[' ']' isWordChar content') = c1)
    (hbrc : searchTok '{' '}' Char.isDigit c1 = some dd)
    (hsubc : pyStripL (subTok '{' '}' Char.isDigit c1) = c2) :
    parseStory line = some { title := generateTitle c2, description := c2,
                             priority := some w, story_points := some (digitsToNat dd) } := by
  simp only [parseStory, hstrip, hne, Bool.false_eq_true, if_false, hbr, hsub, hbrc, hsubc,
    Option.map_some']

theorem parseStory_bracket_only {line content' c1 w : List Char}
    (hstrip : pyStripL (line.drop 1) = content')
    (hne : content'.isEmpty = false)
    (hbr : searchTok '[' ']' isWordChar content' = some w)
    (hsub : pyStripL (subTok '[' ']' isWordChar content') = c1)
    (hbrc : searchTok '{' '}' Char.isDigit c1 = none) :
    parseStory line = some { title := generateTitle c1, description := c1,
                             priority := some w, story_points := none } := by
  simp only [parseStory, hstrip, hne, Bool.false_eq_true, if_false, hbr, hsub, hbrc,
    Option.map_none']

theorem parseStory_brace_only {line content' c2 dd : List Char}
    (hstrip : pyStripL (line.drop 1) = content')
    (hne : content'.isEmpty = false)
    (hbr : searchTok '[' ']' isWordChar content' = none)
    (hbrc : searchTok '{' '}' Char.isDigit content' = some dd)
    (hsubc : pyStripL (subTok '{' '}' Char.isDigit content') = c2) :
    parseStory line = some { title := generateTitle c2, description := c2,
                             priority := none, story_points := some (digitsToNat dd) } := by
  simp only [parseStory, hstrip, hne, Bool.false_eq_true, if_false, hbr, hbrc, hsubc,
    Option.map_some']

/-- C10: a bracketed token whose content is not a single `\w`-word (for
example one containing a space) is never extracted: `priority` stays `None`
and the token remains verbatim in the description; likewise a brace token
whose content is not a digit sequence (for example a negative number) leaves
`story_points` as `None` and stays in the description. -/
theorem C10_malformed_tokens (pre w mid d post u v ud vd : List Char) (c0 cd : Char)
    (hpre : '[' ∉ pre ∧ '{' ∉ pre) (hw : '[' ∉ w ∧ '{' ∉ w)
    (hmid : '[' ∉ mid ∧ '{' ∉ mid) (hd : '[' ∉ d ∧ '{' ∉ d)
    (hpost : '[' ∉ post ∧ '{' ∉ post)
    (hwbad : w = [] ∨ (w = u ++ c0 :: v ∧ (∀ x ∈ u, isWordChar x = true) ∧
      isWordChar c0 = false ∧ c0 ≠ ']'))
    (hdbad : d = [] ∨ (d = ud ++ cd :: vd ∧ (∀ x ∈ ud, Char.isDigit x = true) ∧
      Char.isDigit cd = false ∧ cd ≠ '}')) :
    parseStory ('-' :: (pre ++ '[' :: (w ++ ']' :: (mid ++ '{' :: (d ++ '}' :: post))))) =
      some { title := generateTitle
               (pyStripL (pre ++ '[' :: (w ++ ']' :: (mid ++ '{' :: (d ++ '}' :: post))))),
             description :=
               pyStripL (pre ++ '[' :: (w ++ ']' :: (mid ++ '{' :: (d ++ '}' :: post)))),
             priority := none,
             story_points := none } ∧
    containsSeq ('[' :: (w ++ [']']))
      (pyStripL (pre ++ '[' :: (w ++ ']' :: (mid ++ '{' :: (d ++ '}' :: post))))) = true ∧
    containsSeq ('{' :: (d ++ ['}']))
      (pyStripL (pre ++ '[' :: (w ++ ']' :: (mid ++ '{' :: (d ++ '}' :: post))))) = true := by
  obtain ⟨hpre1, hpre2⟩ := hpre
  obtain ⟨hw1, hw2⟩ := hw
  obtain ⟨hmid1, hmid2⟩ := hmid
  obtain ⟨hd1, hd2⟩ := hd
  obtain ⟨hpost1, hpost2⟩ := hpost
  have hMshape : pre ++ '[' :: (w ++ ']' :: (mid ++ '{' :: (d ++ '}' :: post))) =
      pre ++ ('[' :: (w ++ ']' :: (mid ++ '{' :: (d ++ ['}'])))) ++ post := by
    simp [List.append_assoc]
  have hstrip : pyStripL (pre ++ '[' :: (w ++ ']' :: (mid ++ '{' :: (d ++ '}' :: post)))) =
      lstripL pre ++ ('[' :: (w ++ ']' :: (mid ++ '{' :: (d ++ ['}'])))) ++ rstripL post := by
    rw [hMshape]
    apply pyStripL_concat
    · simp
    · intro cc hcc
      have : '[' = cc := by simpa using hcc
      subst this
      decide
    · intro cc hcc
      have hsh : ('[' :: (w ++ ']' :: (mid ++ '{' :: (d ++ ['}'])))) =
          ('[' :: (w ++ ']' :: (mid ++ '{' :: d))) ++ ['}'] := by
        simp [List.append_assoc]
      rw [hsh, List.getLast?_concat] at hcc
      have : '}' = cc := by simpa using hcc
      subst this
      decide
  have hlpre1 : '[' ∉ lstripL pre := fun hmem => hpre1 (mem_lstripL hmem)
  have hrpost1 : '[' ∉ rstripL post := fun hmem => hpost1 (mem_rstripL hmem)
  have hlpre2 : '{' ∉ lstripL pre := fun hmem => hpre2 (mem_lstripL hmem)
  have hrpost2 : '{' ∉ rstripL post := fun hmem => hpost2 (mem_rstripL hmem)
  have hrest1 : '[' ∉ w ++ ']' :: (mid ++ '{' :: (d ++ '}' :: rstripL post)) := by
    intro hmem
    simp only [List.mem_append, List.mem_cons] at hmem
    rcases hmem with h | h | h | h | h | h | h
    · exact hw1 h
    · exact absurd h (by decide)
    · exact hmid1 h
    · exact absurd h (by decide)
    · exact hd1 h
    · exact absurd h (by decide)
    · exact hrpost1 h
  have hrest2 : '{' ∉ d ++ '}' :: rstripL post := by
    intro hmem
    simp only [List.mem_append, List.mem_cons] at hmem
    rcases hmem with h | h | h
    · exact hd2 h
    · exact absurd h (by decide)
    · exact hrpost2 h
  have hsearchBr : searchTok '[' ']' isWordChar
      (pyStripL (pre ++ '[' :: (w ++ ']' :: (mid ++ '{' :: (d ++ '}' :: post))))) = none := by
    rw [hstrip]
    have hshape2 : lstripL pre ++ ('[' :: (w ++ ']' :: (mid ++ '{' :: (d ++ ['}'])))) ++
        rstripL post =
        lstripL pre ++ '[' :: (w ++ ']' :: (mid ++ '{' :: (d ++ '}' :: rstripL post))) := by
      simp [List.append_assoc]
    rw [hshape2, searchTok_append_not_op hlpre1]
    rcases hwbad with hwe | ⟨hwe, hu, hc0w, hc0ne⟩
    · subst hwe
      rw [List.nil_append, searchTok, tokAt_bad_empty (by decide)]
      exact searchTok_none_of_not_mem (by simpa using hrest1)
    · subst hwe
      rw [searchTok, tokAt_bad_inner hu hc0w hc0ne]
      exact searchTok_none_of_not_mem hrest1
  have hsearchBrc : searchTok '{' '}' Char.isDigit
      (pyStripL (pre ++ '[' :: (w ++ ']' :: (mid ++ '{' :: (d ++ '}' :: post))))) = none := by
    rw [hstrip]
    have hshape3 : lstripL pre ++ ('[' :: (w ++ ']' :: (mid ++ '{' :: (d ++ ['}'])))) ++
        rstripL post =
        (lstripL pre ++ '[' :: (w ++ ']' :: mid)) ++ '{' :: (d ++ '}' :: rstripL post) := by
      simp [List.append_assoc]
    have hY : '{' ∉ lstripL pre ++ '[' :: (w ++ ']' :: mid) := by
      intro hmem
      simp only [List.mem_append, List.mem_cons] at hmem
      rcases hmem with h | h | h | h | h
      · exact hlpre2 h
      · exact absurd h (by decide)
      · exact hw2 h
      · exact absurd h (by decide)
      · exact hmid2 h
    rw [hshape3, searchTok_append_not_op hY]
    rcases hdbad with hde | ⟨hde, hud, hcdd, hcdne⟩
    · subst hde
      rw [List.nil_append, searchTok, tokAt_bad_empty (by decide)]
      exact searchTok_none_of_not_mem (by simpa using hrest2)
    · subst hde
      rw [searchTok, tokAt_bad_inner hud hcdd hcdne]
      exact searchTok_none_of_not_mem hrest2
  have hne : (pyStripL (pre ++ '[' :: (w ++ ']' :: (mid ++ '{' :: (d ++ '}' :: post))))).isEmpty
      = false := by
    rw [hstrip]
    simp
  refine ⟨parseStory_no_tokens rfl hne hsearchBr hsearchBrc, ?_, ?_⟩
  · rw [hstrip]
    apply containsSeq_iff.mpr
    refine ⟨lstripL pre, mid ++ '{' :: (d ++ '}' :: rstripL post), ?_⟩
    simp [List.append_assoc]
  · rw [hstrip]
    apply containsSeq_iff.mpr
    refine ⟨lstripL pre ++ '[' :: (w ++ ']' :: mid), rstripL post, ?_⟩
    simp [List.append_assoc]

theorem C10_witness :
    parseStory ("- task [High Priority] mid {-3} end".data) =
      some { title := generateTitle (pyStripL ("task [High Priority] mid {-3} end".data)),
             description := pyStripL ("task [High Priority] mid {-3} end".data),
             priority := none,
             story_points := none } ∧
    containsSeq ("[High Priority]".data)
      (pyStripL ("task [High Priority] mid {-3} end".data)) = true ∧
    containsSeq ("{-3}".data)
      (pyStripL ("task [High Priority] mid {-3} end".data)) = true := by
  have h := C10_malformed_tokens ("task ".data) ("High Priority".data) (" mid ".data)
    ("-3".data) (" end".data) ("High".data) ("Priority".data) [] ("3".data) ' ' '-'
    (by decide) (by decide) (by decide) (by decide) (by decide)
    (Or.inr (by refine ⟨by decide, ?_, by decide, by decide⟩; decide))
    (Or.inr (by refine ⟨by decide, ?_, by decide, by decide⟩; decide))
  exact h

/-- C1 counterexample: on the story line `- a [High] b [Low]` the code takes
the priority from the first bracketed token but removes BOTH tokens (Python's
`re.sub` with no count removes every match), so the second bracketed token
does not remain in the description; likewise for two brace tokens. -/
theorem C1_counterexample :
    parseStory ("- a [High] b [Low]".data) =
      some { title := "a  b".data, description := "a  b".data,
             priority := some ("High".data), story_points := none } ∧
    containsSeq ("[Low]".data) ("a  b".data) = false ∧
    parseStory ("- x {1} y {2}".data) =
      some { title := "x  y".data, description := "x  y".data,
             priority := none, story_points := some 1 } ∧
    containsSeq ("{2}".data) ("x  y".data) = false := by
  exact ⟨by decide, by decide, by decide, by decide⟩

/-- C1 amended: for a story line with two bracketed word tokens and two brace
digit tokens, the first bracket's word becomes the priority and the first
brace's number becomes the story points, but every matching token is removed
from the description — neither the second bracket nor the second brace
remains. -/
theorem C1_first_token_wins_all_removed (pre a b c post w1 w2 d1 d2 : List Char)
    (hw1 : w1 ≠ []) (hw1g : ∀ x ∈ w1, isWordChar x = true)
    (hw2 : w2 ≠ []) (hw2g : ∀ x ∈ w2, isWordChar x = true)
    (hd1 : d1 ≠ []) (hd1g : ∀ x ∈ d1, Char.isDigit x = true)
    (hd2 : d2 ≠ []) (hd2g : ∀ x ∈ d2, Char.isDigit x = true)
    (hpre : '[' ∉ pre ∧ '{' ∉ pre) (ha : '[' ∉ a ∧ '{' ∉ a) (hb : '[' ∉ b ∧ '{' ∉ b)
    (hc : '[' ∉ c ∧ '{' ∉ c) (hpost : '[' ∉ post ∧ '{' ∉ post) :
    parseStory ('-' :: (pre ++ '[' :: (w1 ++ ']' :: (a ++ '[' :: (w2 ++ ']' ::
        (b ++ '{' :: (d1 ++ '}' :: (c ++ '{' :: (d2 ++ '}' :: post))))))))) =
      some { title := generateTitle (pyStripL (pre ++ a ++ b ++ c ++ post)),
             description := pyStripL (pre ++ a ++ b ++ c ++ post),
             priority := some w1,
             story_points := some (digitsToNat d1) } ∧
    containsSeq ('[' :: (w2 ++ [']'])) (pyStripL (pre ++ a ++ b ++ c ++ post)) = false ∧
    containsSeq ('{' :: (d2 ++ ['}'])) (pyStripL (pre ++ a ++ b ++ c ++ post)) = false := by
  obtain ⟨hpre1, hpre2⟩ := hpre
  obtain ⟨ha1, ha2⟩ := ha
  obtain ⟨hb1, hb2⟩ := hb
  obtain ⟨hc1, hc2⟩ := hc
  obtain ⟨hpost1, hpost2⟩ := hpost
  have hd1br : '[' ∉ d1 := fun hm => absurd (hd1g '[' hm) (by decide)
  have hd2br : '[' ∉ d2 := fun hm => absurd (hd2g '[' hm) (by decide)
  have hd1brc : '{' ∉ d1 := fun hm => absurd (hd1g '{' hm) (by decide)
  have hd2brc : '{' ∉ d2 := fun hm => absurd (hd2g '{' hm) (by decide)
  have hw1brc : '{' ∉ w1 := fun hm => absurd (hw1g '{' hm) (by decide)
  have hw2brc : '{' ∉ w2 := fun hm => absurd (hw2g '{' hm) (by decide)
  have hlpre1 : '[' ∉ lstripL pre := fun hm => hpre1 (mem_lstripL hm)
  have hrpost1 : '[' ∉ rstripL post := fun hm => hpost1 (mem_rstripL hm)
  have hrpost2 : '{' ∉ rstripL post := fun hm => hpost2 (mem_rstripL hm)
  -- strip of the raw content
  have hMshape : pre ++ '[' :: (w1 ++ ']' :: (a ++ '[' :: (w2 ++ ']' ::
      (b ++ '{' :: (d1 ++ '}' :: (c ++ '{' :: (d2 ++ '}' :: post))))))) =
      pre ++ ('[' :: (w1 ++ ']' :: (a ++ '[' :: (w2 ++ ']' ::
        (b ++ '{' :: (d1 ++ '}' :: (c ++ '{' :: (d2 ++ ['}'])))))))) ++ post := by
    simp [List.append_assoc]
  have hstrip : pyStripL (pre ++ '[' :: (w1 ++ ']' :: (a ++ '[' :: (w2 ++ ']' ::
      (b ++ '{' :: (d1 ++ '}' :: (c ++ '{' :: (d2 ++ '}' :: post)))))))) =
      lstripL pre ++ ('[' :: (w1 ++ ']' :: (a ++ '[' :: (w2 ++ ']' ::
        (b ++ '{' :: (d1 ++ '}' :: (c ++ '{' :: (d2 ++ ['}'])))))))) ++ rstripL post := by
    rw [hMshape]
    apply pyStripL_concat
    · simp
    · intro cc hcc
      have : '[' = cc := by simpa using hcc
      subst this
      decide
    · intro cc hcc
      have hsh : ('[' :: (w1 ++ ']' :: (a ++ '[' :: (w2 ++ ']' ::
          (b ++ '{' :: (d1 ++ '}' :: (c ++ '{' :: (d2 ++ ['}'])))))))) =
          ('[' :: (w1 ++ ']' :: (a ++ '[' :: (w2 ++ ']' ::
            (b ++ '{' :: (d1 ++ '}' :: (c ++ '{' :: d2))))))) ++ ['}'] := by
        simp [List.append_assoc]
      rw [hsh, List.getLast?_concat] at hcc
      have : '}' = cc := by simpa using hcc
      subst this
      decide
  -- the bracket phase
  have hshapeBr : lstripL pre ++ ('[' :: (w1 ++ ']' :: (a ++ '[' :: (w2 ++ ']' ::
      (b ++ '{' :: (d1 ++ '}' :: (c ++ '{' :: (d2 ++ ['}'])))))))) ++ rstripL post =
      lstripL pre ++ '[' :: (w1 ++ ']' :: (a ++ '[' :: (w2 ++ ']' ::
        (b ++ '{' :: (d1 ++ '}' :: (c ++ '{' :: (d2 ++ '}' :: rstripL post))))))) := by
    simp [List.append_assoc]
  have hsearchBr : searchTok '[' ']' isWordChar
      (lstripL pre ++ ('[' :: (w1 ++ ']' :: (a ++ '[' :: (w2 ++ ']' ::
        (b ++ '{' :: (d1 ++ '}' :: (c ++ '{' :: (d2 ++ ['}'])))))))) ++ rstripL post) =
      some w1 := by
    rw [hshapeBr]
    exact searchTok_token hlpre1 hw1 hw1g (by decide)
  have hrest2 : '[' ∉ b ++ '{' :: (d1 ++ '}' :: (c ++ '{' :: (d2 ++ '}' :: rstripL post))) := by
    intro hm
    simp only [List.mem_append, List.mem_cons] at hm
    rcases hm with h | h | h | h | h | h | h | h | h
    · exact hb1 h
    · exact absurd h (by decide)
    · exact hd1br h
    · exact absurd h (by decide)
    · exact hc1 h
    · exact absurd h (by decide)
    · exact hd2br h
    · exact absurd h (by decide)
    · exact hrpost1 h
  have hsubBr : subTok '[' ']' isWordChar
      (lstripL pre ++ ('[' :: (w1 ++ ']' :: (a ++ '[' :: (w2 ++ ']' ::
        (b ++ '{' :: (d1 ++ '}' :: (c ++ '{' :: (d2 ++ ['}'])))))))) ++ rstripL post) =
      lstripL pre ++ (a ++ (b ++ '{' :: (d1 ++ '}' :: (c ++ '{' ::
        (d2 ++ '}' :: rstripL post))))) := by
    rw [hshapeBr]
    rw [subTok_token hlpre1 hw1 hw1g (by decide)]
    rw [subTok_token ha1 hw2 hw2g (by decide)]
    rw [subTok_eq_self_of_not_mem hrest2]
  -- strip after the bracket removal
  have hstrip2 : pyStripL (lstripL pre ++ (a ++ (b ++ '{' :: (d1 ++ '}' :: (c ++ '{' ::
      (d2 ++ '}' :: rstripL post)))))) =
      lstripL (pre ++ a ++ b) ++ ('{' :: (d1 ++ '}' :: (c ++ '{' :: (d2 ++ ['}'])))) ++
        rstripL post := by
    rw [pyStripL_lstrip_append]
    have hsh2 : pre ++ (a ++ (b ++ '{' :: (d1 ++ '}' :: (c ++ '{' ::
        (d2 ++ '}' :: rstripL post))))) =
        (pre ++ a ++ b ++ ('{' :: (d1 ++ '}' :: (c ++ '{' :: (d2 ++ ['}']))))) ++
          rstripL post := by
      simp [List.append_assoc]
    rw [hsh2, pyStripL_append_rstrip]
    have hsh3 : pre ++ a ++ b ++ ('{' :: (d1 ++ '}' :: (c ++ '{' :: (d2 ++ ['}'])))) ++ post =
        (pre ++ a ++ b) ++ ('{' :: (d1 ++ '}' :: (c ++ '{' :: (d2 ++ ['}'])))) ++ post := by
      simp [List.append_assoc]
    rw [hsh3]
    apply pyStripL_concat
    · simp
    · intro cc hcc
      have : '{' = cc := by simpa using hcc
      subst this
      decide
    · intro cc hcc
      have hsh : ('{' :: (d1 ++ '}' :: (c ++ '{' :: (d2 ++ ['}'])))) =
          ('{' :: (d1 ++ '}' :: (c ++ '{' :: d2))) ++ ['}'] := by
        simp [List.append_assoc]
      rw [hsh, List.getLast?_concat] at hcc
      have : '}' = cc := by simpa using hcc
      subst this
      decide
  -- the brace phase
  have hlpab : '{' ∉ lstripL (pre ++ a ++ b) := by
    intro hm
    have := mem_lstripL hm
    simp only [List.mem_append] at this
    rcases this with (h | h) | h
    · exact hpre2 h
    · exact ha2 h
    · exact hb2 h
  have hshapeBrc : lstripL (pre ++ a ++ b) ++ ('{' :: (d1 ++ '}' :: (c ++ '{' ::
      (d2 ++ ['}'])))) ++ rstripL post =
      lstripL (pre ++ a ++ b) ++ '{' :: (d1 ++ '}' :: (c ++ '{' ::
        (d2 ++ '}' :: rstripL post))) := by
    simp [List.append_assoc]
  have hsearchBrc : searchTok '{' '}' Char.isDigit
      (lstripL (pre ++ a ++ b) ++ ('{' :: (d1 ++ '}' :: (c ++ '{' ::
        (d2 ++ ['}'])))) ++ rstripL post) = some d1 := by
    rw [hshapeBrc]
    exact searchTok_token hlpab hd1 hd1g (by decide)
  have hrest3 : '{' ∉ rstripL post := hrpost2
  have hsubBrc : subTok '{' '}' Char.isDigit
      (lstripL (pre ++ a ++ b) ++ ('{' :: (d1 ++ '}' :: (c ++ '{' ::
        (d2 ++ ['}'])))) ++ rstripL post) =
      lstripL (pre ++ a ++ b) ++ (c ++ rstripL post) := by
    rw [hshapeBrc]
    rw [subTok_token hlpab hd1 hd1g (by decide)]
    rw [subTok_token hc2 hd2 hd2g (by decide)]
    rw [subTok_eq_self_of_not_mem hrest3]
  -- strip after the brace removal
  have hstrip3 : pyStripL (lstripL (pre ++ a ++ b) ++ (c ++ rstripL post)) =
      pyStripL (pre ++ a ++ b ++ c ++ post) := by
    rw [pyStripL_lstrip_append]
    have hsh4 : pre ++ a ++ b ++ (c ++ rstripL post) =
        (pre ++ a ++ b ++ c) ++ rstripL post := by
      simp [List.append_assoc]
    rw [hsh4, pyStripL_append_rstrip]
  -- assemble
  have hne : (pyStripL (pre ++ '[' :: (w1 ++ ']' :: (a ++ '[' :: (w2 ++ ']' ::
      (b ++ '{' :: (d1 ++ '}' :: (c ++ '{' :: (d2 ++ '}' :: post))))))))).isEmpty =
      false := by
    rw [hstrip]
    simp
  have hDnotBr : '[' ∉ pyStripL (pre ++ a ++ b ++ c ++ post) := by
    intro hm
    have := mem_of_mem_pyStripL hm
    simp only [List.mem_append] at this
    rcases this with (((h | h) | h) | h) | h
    · exact hpre1 h
    · exact ha1 h
    · exact hb1 h
    · exact hc1 h
    · exact hpost1 h
  have hDnotBrc : '{' ∉ pyStripL (pre ++ a ++ b ++ c ++ post) := by
    intro hm
    have := mem_of_mem_pyStripL hm
    simp only [List.mem_append] at this
    rcases this with (((h | h) | h) | h) | h
    · exact hpre2 h
    · exact ha2 h
    · exact hb2 h
    · exact hc2 h
    · exact hpost2 h
  refine ⟨?_, ?_, ?_⟩
  · apply @parseStory_with_tokens _ (pyStripL (pre ++ '[' :: (w1 ++ ']' ::
      (a ++ '[' :: (w2 ++ ']' :: (b ++ '{' :: (d1 ++ '}' :: (c ++ '{' ::
        (d2 ++ '}' :: post))))))))) _ _ _ _
    · rfl
    · exact hne
    · rw [hstrip]
      exact hsearchBr
    · rw [hstrip, hsubBr, hstrip2]
    · exact hsearchBrc
    · rw [hsubBrc, hstrip3]
  · exact containsSeq_eq_false (List.mem_cons_self '[' _) hDnotBr
  · exact containsSeq_eq_false (List.mem_cons_self '{' _) hDnotBrc

theorem C1_amended_witness :
    parseStory ("- s [High] t [Low] u {12} v {3} w".data) =
      some { title := generateTitle (pyStripL ("s  t  u  v  w".data)),
             description := pyStripL ("s  t  u  v  w".data),
             priority := some ("High".data),
             story_points := some (digitsToNat ("12".data)) } ∧
    containsSeq ("[Low]".data) (pyStripL ("s  t  u  v  w".data)) = false ∧
    containsSeq ("{3}".data) (pyStripL ("s  t  u  v  w".data)) = false := by
  have h := C1_first_token_wins_all_removed ("s ".data) (" t ".data) (" u ".data)
    (" v ".data) (" w".data) ("High".data) ("Low".data) ("12".data) ("3".data)
    (by decide) (by decide) (by decide) (by decide) (by decide) (by decide)
    (by decide) (by decide) (by decide) (by decide) (by decide) (by decide) (by decide)
  exact h

/-! ### Facts about the title-synthesis phrase search -/

theorem wantAt_none_head {c : Char} {cs : List Char} (hc : pyLowerChar c ≠ 'i') :
    wantAt (c :: cs) = none := by
  unfold wantAt
  rw [if_neg]
  intro h
  rw [List.take_succ_cons, List.map_cons] at h
  injection h with h1 _
  exact hc h1

theorem wantAt_found {p : List Char} (hp : p.map pyLowerChar = ("i want to ".data))
    {r0 : Char} {rt : List Char} (hr0 : r0 ≠ ',') :
    wantAt (p ++ r0 :: rt) = some ((r0 :: rt).takeWhile (fun x => x ≠ ',')) := by
  have hlen : p.length = 10 := by
    have := congrArg List.length hp
    rw [List.length_map] at this
    exact this
  unfold wantAt
  rw [List.take_left' hlen, hp, if_pos rfl, List.drop_left' hlen]
  show (if r0 = ',' then none else some ((r0 :: rt).takeWhile (fun x => x ≠ ','))) =
    some ((r0 :: rt).takeWhile (fun x => x ≠ ','))
  rw [if_neg hr0]

theorem wantAt_some_decomp {s g : List Char} (h : wantAt s = some g) :
    ∃ p : List Char, ∃ r0 : Char, ∃ rt : List Char,
      s = p ++ r0 :: rt ∧ p.map pyLowerChar = ("i want to ".data) ∧ r0 ≠ ',' ∧
      g = (r0 :: rt).takeWhile (fun x => x ≠ ',') := by
  unfold wantAt at h
  by_cases htake : (s.take 10).map pyLowerChar = ("i want to ".data)
  · rw [if_pos htake] at h
    rcases hdrop : s.drop 10 with _ | ⟨r0, rt⟩
    · rw [hdrop] at h
      simp at h
    · rw [hdrop] at h
      have h' : (if r0 = ',' then none
          else some ((r0 :: rt).takeWhile (fun x => x ≠ ','))) = some g := h
      by_cases hr0 : r0 = ','
      · rw [if_pos hr0] at h'
        simp at h'
      · rw [if_neg hr0] at h'
        have hg : g = (r0 :: rt).takeWhile (fun x => x ≠ ',') := by
          have := h'.symm
          simpa using this
        exact ⟨s.take 10, r0, rt, by rw [← hdrop, List.take_append_drop], htake, hr0, hg⟩
  · rw [if_neg htake] at h
    simp at h

theorem searchWant_append {pre y : List Char} (hpre : ∀ c ∈ pre, pyLowerChar c ≠ 'i') :
    searchWant (pre ++ y) = searchWant y := by
  induction pre with
  | nil => rfl
  | cons c cs ih =>
    rw [List.cons_append, searchWant, wantAt_none_head (hpre c (by simp))]
    exact ih (fun x hx => hpre x (List.mem_cons_of_mem _ hx))

theorem searchWant_found {pre p : List Char} {r0 : Char} {rt : List Char}
    (hpre : ∀ c ∈ pre, pyLowerChar c ≠ 'i')
    (hp : p.map pyLowerChar = ("i want to ".data)) (hr0 : r0 ≠ ',') :
    searchWant (pre ++ p ++ (r0 :: rt)) =
      some ((r0 :: rt).takeWhile (fun x => x ≠ ',')) := by
  rw [List.append_assoc, searchWant_append hpre]
  rcases hp0 : p with _ | ⟨p0, pt⟩
  · rw [hp0] at hp
    simp at hp
  · rw [← hp0]
    have hstep : searchWant (p ++ r0 :: rt) =
        match wantAt (p ++ r0 :: rt) with
        | some g => some g
        | none => searchWant (pt ++ r0 :: rt) := by
      rw [hp0]
      rfl
    rw [hstep, wantAt_found hp hr0]

theorem searchWant_some_decomp {d g : List Char} (h : searchWant d = some g) :
    ∃ x p : List Char, ∃ r0 : Char, ∃ rt : List Char,
      d = x ++ p ++ r0 :: rt ∧ p.map pyLowerChar = ("i want to ".data) ∧ r0 ≠ ',' ∧
      g = (r0 :: rt).takeWhile (fun x => x ≠ ',') := by
  induction d with
  | nil => simp [searchWant] at h
  | cons c cs ih =>
    rw [searchWant] at h
    rcases hw : wantAt (c :: cs) with _ | g0
    · rw [hw] at h
      have h' : searchWant cs = some g := h
      obtain ⟨x, p, r0, rt, hd, hp, hr0, hg⟩ := ih h'
      exact ⟨c :: x, p, r0, rt, by simp [hd], hp, hr0, hg⟩
    · rw [hw] at h
      have hg : g0 = g := by simpa using h
      subst hg
      obtain ⟨p, r0, rt, hd, hp, hr0, hg⟩ := wantAt_some_decomp hw
      exact ⟨[], p, r0, rt, by simpa using hd, hp, hr0, hg⟩

theorem searchWant_drop {s : List Char} (n : Nat)
    (h : ∀ k, k < n → wantAt (s.drop k) = none) :
    searchWant s = searchWant (s.drop n) := by
  induction n with
  | zero => rw [List.drop_zero]
  | succ m ih =>
    have hdd : (s.drop m).drop 1 = s.drop (m + 1) := by
      rw [List.drop_drop, Nat.add_comm]
    rw [ih (fun k hk => h k (Nat.lt_succ_of_lt hk)), ← hdd]
    rcases hd : s.drop m with _ | ⟨c, cs⟩
    · rfl
    · have hw : wantAt (c :: cs) = none := by
        rw [← hd]
        exact h m (Nat.lt_succ_self m)
      rw [searchWant, hw]
      rfl

theorem searchWant_head_found {p : List Char} {r0 : Char} {rt : List Char}
    (hp : p.map pyLowerChar = ("i want to ".data)) (hr0 : r0 ≠ ',') :
    searchWant (p ++ r0 :: rt) = some ((r0 :: rt).takeWhile (fun x => x ≠ ',')) := by
  rcases hp0 : p with _ | ⟨p0, pt⟩
  · rw [hp0] at hp
    simp at hp
  · rw [← hp0]
    have hstep : searchWant (p ++ r0 :: rt) =
        match wantAt (p ++ r0 :: rt) with
        | some g => some g
        | none => searchWant (pt ++ r0 :: rt) := by
      rw [hp0]
      rfl
    rw [hstep, wantAt_found hp hr0]

/-- C4: when the description contains, case-insensitively, the phrase
`I want to ` followed by at least one non-comma character — decomposed at the
leftmost such occurrence: the pattern matches at no start position strictly
inside the segment `pre` before it — the title is the captured text up to the
next comma, stripped, with its first character upper-cased, truncated to 57
characters plus an ellipsis when the candidate exceeds 60; an empty captured
action falls back to the full description. -/
theorem C4_want_title (pre p rest : List Char) (r0 : Char) (rt : List Char)
    (hpre : ∀ k, k < pre.length → wantAt ((pre ++ p ++ rest).drop k) = none)
    (hp : p.map pyLowerChar = ("i want to ".data))
    (hrest : rest = r0 :: rt) (hr0 : r0 ≠ ',') :
    generateTitle (pre ++ p ++ rest) =
      clip60 (if (pyStripL (rest.takeWhile (fun x => x ≠ ','))).isEmpty
              then pre ++ p ++ rest
              else capFirst (pyStripL (rest.takeWhile (fun x => x ≠ ',')))) := by
  subst hrest
  have h1 := searchWant_drop pre.length hpre
  have h2 : (pre ++ p ++ (r0 :: rt)).drop pre.length = p ++ r0 :: rt := by
    rw [List.append_assoc, List.drop_left]
  rw [generateTitle, h1, h2, searchWant_head_found hp hr0]

theorem C4_witness :
    generateTitle ("As a user I want to export data, so I can share it.".data) =
      "Export data".data := by
  have heq : "As a user I want to export data, so I can share it.".data =
      "As a user ".data ++ "I want to ".data ++ "export data, so I can share it.".data := by
    decide
  have h := C4_want_title ("As a user ".data) ("I want to ".data)
    ("export data, so I can share it.".data) 'e' ("xport data, so I can share it.".data)
    (by decide) (by decide) (by decide) (by decide)
  rw [heq, h]
  decide

/-- C5: when the description does not contain the case-insensitive phrase
`I want to ` followed by a non-comma character, the title is the full
description when its length is at most 60, and its first 57 characters plus
an ellipsis otherwise. -/
theorem C5_fallback_title (d : List Char)
    (h : ¬ ∃ x p : List Char, ∃ r0 : Char, ∃ rt : List Char,
      d = x ++ p ++ r0 :: rt ∧ p.map pyLowerChar = ("i want to ".data) ∧ r0 ≠ ',') :
    generateTitle d = if 60 < d.length then d.take 57 ++ ("...".data) else d := by
  have hs : searchWant d = none := by
    cases hsw : searchWant d with
    | none => rfl
    | some g =>
      obtain ⟨x, p, r0, rt, hd, hp, hr0, _⟩ := searchWant_some_decomp hsw
      exact absurd ⟨x, p, r0, rt, hd, hp, hr0⟩ h
  rw [generateTitle, hs, clip60]

theorem C5_witness : generateTitle ("hello".data) = "hello".data := by
  have h := C5_fallback_title ("hello".data) (by
    rintro ⟨x, p, r0, rt, hd, hp, _⟩
    have h1 := congrArg List.length hd
    have h2 := congrArg List.length hp
    rw [List.length_map] at h2
    rw [show (("i want to ".data).length) = 10 from rfl] at h2
    simp [h2] at h1
    omega)
  rw [h]
  decide

/-! ### Titles of parsed stories -/

theorem toNat_ofNat_of_valid {n : Nat} (h : n < 55296) : (Char.ofNat n).toNat = n := by
  unfold Char.ofNat
  rw [dif_pos (Or.inl (by omega))]
  rfl

theorem pyIsWs_pyUpperChar (c : Char) : pyIsWs (pyUpperChar c) = pyIsWs c := by
  unfold pyUpperChar
  split
  · next h =>
    obtain ⟨h1, h2⟩ := h
    have hv : (Char.ofNat (c.toNat - 32)).toNat = c.toNat - 32 :=
      toNat_ofNat_of_valid (by omega)
    unfold pyIsWs
    rw [hv]
    have hL : ((c.toNat - 32 == 32) || (c.toNat - 32 == 9) || (c.toNat - 32 == 10) ||
        (c.toNat - 32 == 13) || (c.toNat - 32 == 11) || (c.toNat - 32 == 12)) = false := by
      simp
      omega
    have hR : ((c.toNat == 32) || (c.toNat == 9) || (c.toNat == 10) ||
        (c.toNat == 13) || (c.toNat == 11) || (c.toNat == 12)) = false := by
      simp
      omega
    rw [hL, hR]
  · rfl

theorem clip60_exists_not_ws {t : List Char} (h : ∃ c ∈ t, pyIsWs c = false) :
    ∃ c ∈ clip60 t, pyIsWs c = false := by
  unfold clip60
  split
  · exact ⟨'.', by simp, by decide⟩
  · exact h

theorem pyStripL_generateTitle_ne {d : List Char} (hd : pyStripL d = d) (hne : d ≠ []) :
    pyStripL (generateTitle d) ≠ [] := by
  have hdh : ∃ c ∈ d, pyIsWs c = false := by
    rcases hd2 : d with _ | ⟨c, t⟩
    · exact absurd hd2 hne
    · refine ⟨c, by simp, ?_⟩
      apply pyStripL_head?_not (l := d)
      rw [hd, hd2]
      rfl
  have key : ∃ c ∈ generateTitle d, pyIsWs c = false := by
    rcases hsw : searchWant d with _ | g
    · rw [generateTitle, hsw]
      exact clip60_exists_not_ws hdh
    · rw [generateTitle, hsw]
      show ∃ c ∈ clip60 (if (pyStripL g).isEmpty then d else capFirst (pyStripL g)),
        pyIsWs c = false
      by_cases hact : (pyStripL g).isEmpty
      · rw [if_pos hact]
        exact clip60_exists_not_ws hdh
      · rw [if_neg hact]
        apply clip60_exists_not_ws
        rcases hg : pyStripL g with _ | ⟨a0, t0⟩
        · rw [hg] at hact
          simp at hact
        · have ha0 : pyIsWs a0 = false := by
            apply pyStripL_head?_not (l := g)
            rw [hg]
            rfl
          refine ⟨pyUpperChar a0, by simp [capFirst], ?_⟩
          rw [pyIsWs_pyUpperChar]
          exact ha0
  intro h0
  obtain ⟨c, hc, hcw⟩ := key
  have := pyStripL_eq_nil_iff.mp h0 c hc
  rw [this] at hcw
  exact absurd hcw (by simp)

set_option maxHeartbeats 2000000 in
theorem parseStory_shape {l : List Char} {st : UserStory} (h : parseStory l = some st) :
    st.title = generateTitle st.description ∧ pyStripL st.description = st.description := by
  by_cases hne : (pyStripL (l.drop 1)).isEmpty
  · have hnone : parseStory l = none := by
      simp only [parseStory, hne, if_true]
    rw [hnone] at h
    exact absurd h (by simp)
  · have hne' : (pyStripL (l.drop 1)).isEmpty = false := by
      simpa using hne
    rcases hb : searchTok '[' ']' isWordChar (pyStripL (l.drop 1)) with _ | w
    · rcases hs : searchTok '{' '}' Char.isDigit (pyStripL (l.drop 1)) with _ | dd
      · have hev := parseStory_no_tokens rfl hne' hb hs
        have hst' := Option.some.inj (hev.symm.trans h)
        rw [← hst']
        exact ⟨rfl, pyStripL_idem _⟩
      · have hev := parseStory_brace_only rfl hne' hb hs rfl
        have hst' := Option.some.inj (hev.symm.trans h)
        rw [← hst']
        exact ⟨rfl, pyStripL_idem _⟩
    · rcases hs : searchTok '{' '}' Char.isDigit
          (pyStripL (subTok '[' ']' isWordChar (pyStripL (l.drop 1)))) with _ | dd
      · have hev := parseStory_bracket_only rfl hne' hb rfl hs
        have hst' := Option.some.inj (hev.symm.trans h)
        rw [← hst']
        exact ⟨rfl, pyStripL_idem _⟩
      · have hev := parseStory_with_tokens rfl hne' hb rfl hs rfl
        have hst' := Option.some.inj (hev.symm.trans h)
        rw [← hst']
        constructor
        · rfl
        · exact pyStripL_idem _

theorem story_mem_parseStory {sec : List Char} {e : Epic} {st : UserStory}
    (hsec : parseEpicSection sec = some e) (hst : st ∈ e.stories) :
    ∃ l, parseStory l = some st := by
  unfold parseEpicSection at hsec
  rcases hsp : splitOnChar '\n' (pyStripL sec) with _ | ⟨l0, rest⟩ <;> rw [hsp] at hsec
  · simp at hsec
  · have hsec' : (if ("EPIC:".data).isPrefixOf l0 then
        some ({ title := pyStripL (removeAll ("EPIC:".data) l0),
                stories := rest.filterMap lineStory } : Epic)
      else none) = some e := hsec
    by_cases hh : ("EPIC:".data).isPrefixOf l0
    · rw [if_pos hh] at hsec'
      have he' : e = ({ title := pyStripL (removeAll ("EPIC:".data) l0),
                        stories := rest.filterMap lineStory } : Epic) := by
        have := hsec'.symm
        simpa using this
      rw [he'] at hst
      simp only [List.mem_filterMap] at hst
      obtain ⟨l, _, hl⟩ := hst
      unfold lineStory at hl
      by_cases hpre : ("-".data).isPrefixOf (pyStripL l)
      · rw [if_pos hpre] at hl
        exact ⟨pyStripL l, hl⟩
      · rw [if_neg hpre] at hl
        simp at hl
    · rw [if_neg hh] at hsec'
      simp at hsec'

/-- C3 counterexample: the story line `- [High]` has its whole content
consumed by priority extraction; the story is still constructed and kept,
with an empty description and an empty (hence not non-empty-after-trimming)
title. -/
theorem C3_counterexample :
    parseContent ("EPIC: E\n- [High]".data) =
      [{ title := "E".data,
         stories := [{ title := [], description := [],
                       priority := some ("High".data), story_points := none }] }] := by
  decide

/-- C3 amended: a story title in the parser's output is non-empty after
trimming exactly when the story's description is non-empty; a story whose
description was left empty by metadata extraction gets an empty title. -/
theorem C3_title_nonempty_iff (content : List Char) (e : Epic) (st : UserStory)
    (he : e ∈ parseContent content) (hst : st ∈ e.stories) :
    pyStripL st.title = [] ↔ st.description = [] := by
  obtain ⟨sec, _, hsec, _⟩ := parseContent_mem he
  obtain ⟨l, hps⟩ := story_mem_parseStory hsec hst
  obtain ⟨htitle, hdesc⟩ := parseStory_shape hps
  rw [htitle]
  constructor
  · intro h
    by_contra hne
    exact absurd h (pyStripL_generateTitle_ne hdesc hne)
  · intro h
    rw [h]
    decide

theorem C3_witness :
    pyStripL (([] : List Char)) = [] ↔ ([] : List Char) = [] :=
  C3_title_nonempty_iff ("EPIC: E\n- [High]".data)
    { title := "E".data,
      stories := [{ title := [], description := [],
                    priority := some ("High".data), story_points := none }] }
    { title := [], description := [],
      priority := some ("High".data), story_points := none }
    (by decide) (by decide)

/-! ### Segmentation: splitting, joining, and the section structure -/

theorem splitOnChar_ne_nil {sep : Char} (l : List Char) : splitOnChar sep l ≠ [] := by
  cases l with
  | nil => simp [splitOnChar]
  | cons c cs =>
    rw [splitOnChar]
    rcases splitOnChar sep cs with _ | ⟨r, rs⟩
    · simp
    · by_cases hc : c = sep <;> simp [hc]

theorem splitOnChar_not_mem {sep : Char} {l : List Char} (h : sep ∉ l) :
    splitOnChar sep l = [l] := by
  induction l with
  | nil => rfl
  | cons c cs ih =>
    have hc : c ≠ sep := fun hh => h (by simp [hh])
    rw [splitOnChar, ih (fun hm => h (List.mem_cons_of_mem _ hm))]
    simp [hc]

theorem splitOnChar_append_sep {sep : Char} {a : List Char} (ha : sep ∉ a) (b : List Char) :
    splitOnChar sep (a ++ sep :: b) = a :: splitOnChar sep b := by
  induction a with
  | nil =>
    rw [List.nil_append, splitOnChar]
    rcases hb : splitOnChar sep b with _ | ⟨r, rs⟩
    · exact absurd hb (splitOnChar_ne_nil b)
    · simp
  | cons c cs ih =>
    have hc : c ≠ sep := fun hh => ha (by simp [hh])
    rw [List.cons_append, splitOnChar,
      ih (fun hm => ha (List.mem_cons_of_mem _ hm))]
    simp [hc]

theorem splitOnChar_parts {sep : Char} : ∀ {l : List Char}, ∀ part ∈ splitOnChar sep l,
    sep ∉ part := by
  intro l
  induction l with
  | nil =>
    intro part hp
    have : part = [] := by simpa [splitOnChar] using hp
    simp [this]
  | cons c cs ih =>
    intro part hp
    rw [splitOnChar] at hp
    rcases heq : splitOnChar sep cs with _ | ⟨r, rs⟩
    · exact absurd heq (splitOnChar_ne_nil cs)
    · rw [heq] at hp
      have hp' : part ∈ (if c = sep then ([] : List Char) :: r :: rs
          else (c :: r) :: rs) := hp
      by_cases hc : c = sep
      · rw [if_pos hc] at hp'
        simp only [List.mem_cons] at hp'
        rcases hp' with hp' | hp' | hp'
        · simp [hp']
        · exact ih part (by rw [heq, hp']; exact List.mem_cons_self r rs)
        · exact ih part (by rw [heq]; exact List.mem_cons_of_mem r hp')
      · rw [if_neg hc] at hp'
        simp only [List.mem_cons] at hp'
        rcases hp' with hp' | hp'
        · rw [hp']
          intro hm
          simp only [List.mem_cons] at hm
          rcases hm with hm | hm
          · exact hc hm.symm
          · exact ih r (by rw [heq]; exact List.mem_cons_self r rs) hm
        · exact ih part (by rw [heq]; exact List.mem_cons_of_mem r hp')

theorem joinL_cons₂ {p : List Char} {ys : List (List Char)} (h : ys ≠ []) :
    joinL (p :: ys) = p ++ '\n' :: joinL ys := by
  cases ys with
  | nil => exact absurd rfl h
  | cons y ys' => rfl

theorem joinL_head? {p : List Char} (ps : List (List Char)) (hp : p ≠ []) :
    (joinL (p :: ps)).head? = p.head? := by
  cases ps with
  | nil => rfl
  | cons q qs =>
    rw [joinL_cons₂ (by simp)]
    rcases p with _ | ⟨c, t⟩
    · exact absurd rfl hp
    · rfl

theorem joinL_ne_nil {p : List Char} (ps : List (List Char)) (hp : p ≠ []) :
    joinL (p :: ps) ≠ [] := by
  cases ps with
  | nil => exact hp
  | cons q qs =>
    rw [joinL_cons₂ (by simp)]
    rcases p with _ | ⟨c, t⟩
    · exact absurd rfl hp
    · simp

theorem joinL_getLast (ps : List (List Char)) : ∀ (q : List Char), q ≠ [] →
    (joinL (ps ++ [q])).getLast? = q.getLast? := by
  induction ps with
  | nil => intro q _; rfl
  | cons p pt ih =>
    intro q hq
    show (joinL (p :: (pt ++ [q]))).getLast? = q.getLast?
    rw [joinL_cons₂ (by simp), List.getLast?_append]
    have hJ : joinL (pt ++ [q]) ≠ [] := by
      rcases pt with _ | ⟨p0, pt'⟩
      · simpa using hq
      · show joinL (p0 :: (pt' ++ [q])) ≠ []
        rw [joinL_cons₂ (by simp)]
        simp
    rcases hJe : joinL (pt ++ [q]) with _ | ⟨j, js⟩
    · exact absurd hJe hJ
    · rw [List.getLast?_cons_cons, ← hJe, ih q hq]
      have hqn : q.getLast? ≠ none := by
        rcases List.eq_nil_or_concat q with h0 | ⟨q', a, hqa⟩
        · exact absurd h0 hq
        · rw [hqa, List.concat_eq_append, List.getLast?_concat]
          simp
      rcases hql : q.getLast? with _ | x
      · exact absurd hql hqn
      · rfl

theorem pyStripL_joinL {parts : List (List Char)} (hne : parts ≠ [])
    (hinv : ∀ p ∈ parts, p ≠ [] ∧ pyStripL p = p) :
    pyStripL (joinL parts) = joinL parts := by
  apply pyStripL_eq_self
  · intro c hc
    rcases parts with _ | ⟨p, ps⟩
    · exact absurd rfl hne
    obtain ⟨hp, hps⟩ := hinv p (by simp)
    rw [joinL_head? ps hp] at hc
    apply pyStripL_head?_not (l := p)
    rw [hps]
    exact hc
  · intro c hc
    rcases List.eq_nil_or_concat parts with h0 | ⟨ps', q, hpq⟩
    · exact absurd h0 hne
    rw [List.concat_eq_append] at hpq
    subst hpq
    obtain ⟨hq, hqs⟩ := hinv q (by simp)
    rw [joinL_getLast ps' q hq] at hc
    apply pyStripL_getLast?_not (l := q)
    rw [hqs]
    exact hc

theorem section_roundtrip_split : ∀ {parts : List (List Char)}, parts ≠ [] →
    (∀ p ∈ parts, '\n' ∉ p) → splitOnChar '\n' (joinL parts) = parts := by
  intro parts
  induction parts with
  | nil => intro h _; exact absurd rfl h
  | cons p ps ih =>
    intro _ hmem
    rcases ps with _ | ⟨q, qs⟩
    · exact splitOnChar_not_mem (hmem p (by simp))
    · rw [joinL_cons₂ (by simp),
        splitOnChar_append_sep (hmem p (by simp)),
        ih (by simp) (fun x hx => hmem x (List.mem_cons_of_mem _ hx))]

theorem section_roundtrip {parts : List (List Char)} (hne : parts ≠ [])
    (hinv : ∀ p ∈ parts, p ≠ [] ∧ '\n' ∉ p ∧ pyStripL p = p) :
    splitOnChar '\n' (pyStripL (joinL parts)) = parts := by
  rw [pyStripL_joinL hne (fun p hp => ⟨(hinv p hp).1, (hinv p hp).2.2⟩)]
  exact section_roundtrip_split hne (fun p hp => (hinv p hp).2.1)

theorem breakSections_cons (s : List Char) (ts : List (List Char)) :
    breakSections (s :: ts) =
      if isHdr s then ([], (s :: (breakSections ts).1) :: (breakSections ts).2)
      else (s :: (breakSections ts).1, (breakSections ts).2) := rfl

theorem breakSections_join : ∀ ts : List (List Char),
    (breakSections ts).1 ++ ((breakSections ts).2).flatten = ts := by
  intro ts
  induction ts with
  | nil => rfl
  | cons t ts ih =>
    rw [breakSections_cons]
    by_cases h : isHdr t
    · rw [if_pos h]
      show ([] : List (List Char)) ++ ((t :: (breakSections ts).1) :: (breakSections ts).2).flatten
        = t :: ts
      simp only [List.nil_append, List.flatten_cons, List.cons_append, List.append_assoc]
      rw [ih]
    · rw [if_neg h]
      show (t :: (breakSections ts).1) ++ ((breakSections ts).2).flatten = t :: ts
      rw [List.cons_append, ih]

theorem breakSections_lead_no_hdr : ∀ (ts : List (List Char)),
    ∀ t ∈ (breakSections ts).1, isHdr t = false := by
  intro ts
  induction ts with
  | nil => intro t ht; simp [breakSections] at ht
  | cons s ts ih =>
    intro t ht
    rw [breakSections_cons] at ht
    by_cases h : isHdr s
    · rw [if_pos h] at ht
      simp at ht
    · rw [if_neg h] at ht
      simp only [List.mem_cons] at ht
      rcases ht with ht | ht
      · rw [ht]
        simpa using h
      · exact ih t ht

theorem breakSections_groups : ∀ (ts : List (List Char)),
    ∀ g ∈ (breakSections ts).2, ∃ h body, g = h :: body ∧ isHdr h = true := by
  intro ts
  induction ts with
  | nil => intro g hg; simp [breakSections] at hg
  | cons s ts ih =>
    intro g hg
    rw [breakSections_cons] at hg
    by_cases h : isHdr s
    · rw [if_pos h] at hg
      simp only [List.mem_cons] at hg
      rcases hg with hg | hg
      · exact ⟨s, (breakSections ts).1, hg, h⟩
      · exact ih g hg
    · rw [if_neg h] at hg
      exact ih g hg

theorem breakSections_heads : ∀ (ts : List (List Char)),
    ((breakSections ts).2).map (fun g => g.headD []) = ts.filter isHdr := by
  intro ts
  induction ts with
  | nil => rfl
  | cons s ts ih =>
    rw [breakSections_cons, List.filter_cons]
    by_cases h : isHdr s
    · rw [if_pos h, if_pos h]
      show (s :: (breakSections ts).1).headD [] ::
        ((breakSections ts).2).map (fun g => g.headD []) = s :: ts.filter isHdr
      rw [ih]
      rfl
    · rw [if_neg h, if_neg h]
      exact ih

theorem procLines_inv (content : List Char) :
    ∀ t ∈ procLines content, t ≠ [] ∧ '\n' ∉ t ∧ pyStripL t = t := by
  intro t ht
  unfold procLines at ht
  rw [List.mem_filter] at ht
  obtain ⟨hmem, hkeep⟩ := ht
  rw [List.mem_map] at hmem
  obtain ⟨l, hl, rfl⟩ := hmem
  refine ⟨?_, ?_, pyStripL_idem l⟩
  · intro h0
    rw [h0] at hkeep
    simp [isSkip] at hkeep
  · intro hnl
    exact splitOnChar_parts l hl (mem_of_mem_pyStripL hnl)

theorem mem_of_mem_lead {ts : List (List Char)} {t : List Char}
    (h : t ∈ (breakSections ts).1) : t ∈ ts := by
  rw [← breakSections_join ts]
  exact List.mem_append_left _ h

theorem mem_of_mem_groups {ts : List (List Char)} {g : List (List Char)} {x : List Char}
    (hg : g ∈ (breakSections ts).2) (hx : x ∈ g) : x ∈ ts := by
  rw [← breakSections_join ts]
  exact List.mem_append_right _ (List.mem_flatten.mpr ⟨g, hg, hx⟩)

theorem segGo_nil (secs cur : List (List Char)) :
    segGo [] secs cur = if cur.isEmpty then secs else secs ++ [joinL cur] := rfl

theorem segGo_cons (l : List Char) (ls secs cur : List (List Char)) :
    segGo (l :: ls) secs cur =
      if isSkip (pyStripL l) then segGo ls secs cur
      else if isHdr (pyStripL l) then
        segGo ls (if cur.isEmpty then secs else secs ++ [joinL cur]) [pyStripL l]
      else segGo ls secs (cur ++ [pyStripL l]) := rfl

theorem segGo_eq : ∀ (ls : List (List Char)) (secs cur : List (List Char)),
    segGo ls secs cur =
      secs ++
        (if (cur ++ (breakSections ((ls.map pyStripL).filter (fun t => !isSkip t))).1).isEmpty
         then []
         else [joinL (cur ++
           (breakSections ((ls.map pyStripL).filter (fun t => !isSkip t))).1)]) ++
        ((breakSections ((ls.map pyStripL).filter (fun t => !isSkip t))).2).map joinL := by
  intro ls
  induction ls with
  | nil =>
    intro secs cur
    rw [segGo_nil]
    show _ = secs ++
      (if (cur ++ (breakSections []).1).isEmpty then []
       else [joinL (cur ++ (breakSections []).1)]) ++
      ((breakSections []).2).map joinL
    show _ = secs ++
      (if (cur ++ ([] : List (List Char))).isEmpty then []
       else [joinL (cur ++ ([] : List (List Char)))]) ++ []
    rw [List.append_nil, List.append_nil]
    by_cases hc : cur.isEmpty
    · rw [if_pos hc, if_pos hc]
      simp
    · rw [if_neg hc, if_neg hc]
  | cons l ls ih =>
    intro secs cur
    rw [segGo_cons]
    by_cases hskip : isSkip (pyStripL l)
    · rw [if_pos hskip]
      have hfl : (((l :: ls).map pyStripL).filter (fun t => !isSkip t)) =
          ((ls.map pyStripL).filter (fun t => !isSkip t)) := by
        simp [hskip]
      rw [ih, hfl]
    · rw [if_neg hskip]
      have hfl : (((l :: ls).map pyStripL).filter (fun t => !isSkip t)) =
          pyStripL l :: ((ls.map pyStripL).filter (fun t => !isSkip t)) := by
        simp [hskip]
      rw [hfl]
      by_cases hhdr : isHdr (pyStripL l)
      · rw [if_pos hhdr, ih, breakSections_cons, if_pos hhdr]
        by_cases hcur : cur.isEmpty
        · have hcur' : cur = [] := List.isEmpty_iff.mp hcur
          subst hcur'
          simp
        · have hcur' : cur.isEmpty = false := by simpa using hcur
          rw [if_neg hcur]
          simp [hcur', List.append_assoc]
      · rw [if_neg hhdr, ih, breakSections_cons, if_neg hhdr]
        simp [List.append_assoc]

theorem splitIntoEpics_eq (content : List Char) :
    splitIntoEpics content =
      (if ((breakSections (procLines content)).1).isEmpty then []
       else [joinL (breakSections (procLines content)).1]) ++
      ((breakSections (procLines content)).2).map joinL := by
  unfold splitIntoEpics procLines
  rw [segGo_eq]
  simp

theorem removeAll_prefix {pat : List Char} (hne : pat ≠ []) (t : List Char) :
    removeAll pat (pat ++ t) = removeAll pat t := by
  rcases hp : pat with _ | ⟨pc, pt⟩
  · exact absurd hp hne
  rw [← hp]
  have hshape : pat ++ t = pc :: (pt ++ t) := by rw [hp]; rfl
  rw [hshape, removeAll_cons, ← hshape]
  rw [if_pos ⟨hne, List.isPrefixOf_iff_prefix.mpr ⟨t, rfl⟩⟩]
  rw [List.drop_left pat t]

theorem removeAll_of_not_contains {pat l : List Char}
    (hnc : containsSeq pat l = false) (_hne : pat ≠ []) : removeAll pat l = l := by
  induction l with
  | nil => rfl
  | cons c cs ih =>
    rw [containsSeq] at hnc
    have hsplit := Bool.or_eq_false_iff.mp hnc
    rw [removeAll_cons, if_neg (by
      rintro ⟨_, hpre⟩
      rw [hsplit.1] at hpre
      exact absurd hpre (by simp))]
    rw [ih hsplit.2]

theorem parseEpicSection_group {h : List Char} {body : List (List Char)}
    (hhdr : isHdr h = true)
    (hinv : ∀ p ∈ h :: body, p ≠ [] ∧ '\n' ∉ p ∧ pyStripL p = p) :
    parseEpicSection (joinL (h :: body)) =
      some { title := pyStripL (removeAll ("EPIC:".data) h),
             stories := body.filterMap lineStory } := by
  unfold parseEpicSection
  rw [section_roundtrip (by simp) hinv]
  show (if ("EPIC:".data).isPrefixOf h then
      some ({ title := pyStripL (removeAll ("EPIC:".data) h),
              stories := body.filterMap lineStory } : Epic)
    else none) = _
  exact if_pos hhdr

theorem parseEpicSection_lead {lead : List (List Char)} (hne : lead ≠ [])
    (hnohdr : ∀ t ∈ lead, isHdr t = false)
    (hinv : ∀ p ∈ lead, p ≠ [] ∧ '\n' ∉ p ∧ pyStripL p = p) :
    parseEpicSection (joinL lead) = none := by
  unfold parseEpicSection
  rw [section_roundtrip hne hinv]
  rcases hl : lead with _ | ⟨t0, rest⟩
  · exact absurd hl hne
  · show (if ("EPIC:".data).isPrefixOf t0 then
        some ({ title := pyStripL (removeAll ("EPIC:".data) t0),
                stories := rest.filterMap lineStory } : Epic)
      else none) = none
    rw [if_neg]
    intro hcontra
    have := hnohdr t0 (by rw [hl]; simp)
    rw [show (("EPIC:".data).isPrefixOf t0) = isHdr t0 from rfl, this] at hcontra
    exact absurd hcontra (by simp)

theorem parseContent_eq (content : List Char) :
    parseContent content = ((breakSections (procLines content)).2).filterMap mkEpicG := by
  have hinvAll := procLines_inv content
  unfold parseContent
  rw [splitIntoEpics_eq]
  rw [List.filterMap_append]
  have hlead : List.filterMap (fun sec => match parseEpicSection sec with
      | some e => if e.stories.isEmpty then none else some e
      | none => none)
      (if ((breakSections (procLines content)).1).isEmpty then []
       else [joinL (breakSections (procLines content)).1]) = [] := by
    by_cases hl : ((breakSections (procLines content)).1).isEmpty
    · rw [if_pos hl]
      rfl
    · rw [if_neg hl]
      have hne : (breakSections (procLines content)).1 ≠ [] := by
        simpa [List.isEmpty_iff] using hl
      have hsec : parseEpicSection (joinL (breakSections (procLines content)).1) = none :=
        parseEpicSection_lead hne (breakSections_lead_no_hdr _)
          (fun p hp => hinvAll p (mem_of_mem_lead hp))
      simp [hsec]
  rw [hlead, List.nil_append, List.filterMap_map]
  apply List.filterMap_congr
  intro g hg
  obtain ⟨h, body, rfl, hhdr⟩ := breakSections_groups _ g hg
  have hsec := parseEpicSection_group hhdr
      (fun p hp => hinvAll p (mem_of_mem_groups hg hp))
  show (match parseEpicSection (joinL (h :: body)) with
    | some e => if e.stories.isEmpty then none else some e
    | none => none) = mkEpicG (h :: body)
  rw [hsec]
  rfl

/-- C9: a document with no `EPIC:` header line parses to the empty sequence;
more generally the output is computed from the header-started groups alone,
so lines before the first header never produce an Epic or a story. -/
theorem C9_leading_content_dropped (content : List Char)
    (h : ∀ t ∈ procLines content, isHdr t = false) :
    parseContent content = [] ∧
    parseContent content = ((breakSections (procLines content)).2).filterMap mkEpicG := by
  refine ⟨?_, parseContent_eq content⟩
  rw [parseContent_eq]
  have hf : (procLines content).filter isHdr = [] := by
    rw [List.filter_eq_nil_iff]
    intro t ht
    simp [h t ht]
  have hm := breakSections_heads (procLines content)
  rw [hf] at hm
  rw [List.map_eq_nil_iff.mp hm]
  rfl

theorem C9_witness :
    parseContent ("hello\nworld".data) = [] ∧
    parseContent ("hello\nworld".data) =
      ((breakSections (procLines ("hello\nworld".data))).2).filterMap mkEpicG :=
  C9_leading_content_dropped ("hello\nworld".data) (by decide)

/-- C2 counterexample: a header line whose trailing text itself contains the
substring `EPIC:` — the code removes every occurrence of `EPIC:` (Python's
`str.replace` replaces all), so the title is not the text after the leading
marker. -/
theorem C2_counterexample :
    (parseContent ("EPIC: A EPIC: B\n- x".data)).map (fun e => e.title) =
      ["A  B".data] ∧
    ("A  B".data : List Char) ≠ "A EPIC: B".data := by
  exact ⟨by decide, by decide⟩

/-- C2 amended: the title of every Epic in the output is its section's header
line with every occurrence of `EPIC:` removed, then trimmed; when the text
after the leading marker contains no further `EPIC:` occurrence this equals
that text, trimmed. -/
theorem C2_epic_title (content : List Char) (e : Epic) (he : e ∈ parseContent content) :
    ∃ sec rest, sec ∈ splitIntoEpics content ∧ parseEpicSection sec = some e ∧
      firstLineOf sec = ("EPIC:".data) ++ rest ∧
      e.title = pyStripL (removeAll ("EPIC:".data) rest) ∧
      (containsSeq ("EPIC:".data) rest = false → e.title = pyStripL rest) := by
  obtain ⟨sec, hmem, hsec, _⟩ := parseContent_mem he
  have hsec0 := hsec
  unfold parseEpicSection at hsec
  rcases hsp : splitOnChar '\n' (pyStripL sec) with _ | ⟨l0, rest'⟩ <;> rw [hsp] at hsec
  · simp at hsec
  · have hsec' : (if ("EPIC:".data).isPrefixOf l0 then
        some ({ title := pyStripL (removeAll ("EPIC:".data) l0),
                stories := rest'.filterMap lineStory } : Epic)
      else none) = some e := hsec
    by_cases hh : ("EPIC:".data).isPrefixOf l0
    · rw [if_pos hh] at hsec'
      have he' : ({ title := pyStripL (removeAll ("EPIC:".data) l0),
                    stories := rest'.filterMap lineStory } : Epic) = e := by
        simpa using hsec'
      obtain ⟨t, ht⟩ := List.isPrefixOf_iff_prefix.mp hh
      refine ⟨sec, t, hmem, hsec0, ?_, ?_, ?_⟩
      · unfold firstLineOf
        rw [hsp]
        show l0 = ("EPIC:".data) ++ t
        exact ht.symm
      · rw [← he']
        show pyStripL (removeAll ("EPIC:".data) l0) = pyStripL (removeAll ("EPIC:".data) t)
        rw [← ht, removeAll_prefix (by simp) t]
      · intro hnc
        rw [← he']
        show pyStripL (removeAll ("EPIC:".data) l0) = pyStripL t
        rw [← ht, removeAll_prefix (by simp) t, removeAll_of_not_contains hnc (by simp)]
    · rw [if_neg hh] at hsec'
      simp at hsec'

theorem C2_witness :
    ∃ sec rest, sec ∈ splitIntoEpics ("EPIC: Alpha\n- x".data) ∧
      parseEpicSection sec = some ({ title := "Alpha".data,
                                     stories := [{ title := "x".data,
                                                   description := "x".data,
                                                   priority := none,
                                                   story_points := none }] } : Epic) ∧
      firstLineOf sec = ("EPIC:".data) ++ rest ∧
      ("Alpha".data : List Char) = pyStripL (removeAll ("EPIC:".data) rest) ∧
      (containsSeq ("EPIC:".data) rest = false →
        ("Alpha".data : List Char) = pyStripL rest) :=
  C2_epic_title ("EPIC: Alpha\n- x".data)
    { title := "Alpha".data,
      stories := [{ title := "x".data, description := "x".data,
                    priority := none, story_points := none }] }
    (by decide)

theorem map_filterMap_sublist {α β γ : Type} (f : β → γ) (g : α → Option β) (h : α → γ)
    (l : List α) (H : ∀ a b, g a = some b → f b = h a) :
    ((l.filterMap g).map f).Sublist (l.map h) := by
  induction l with
  | nil => simp
  | cons a t ih =>
    rw [List.filterMap_cons, List.map_cons]
    rcases hga : g a with _ | b
    · exact ih.cons _
    · rw [List.map_cons, H a b hga]
      exact ih.cons₂ _

/-- C8: epics appear in the output in the order of their header lines (the
output's titles form a subsequence, in order, of the header-derived titles),
and each epic's stories are extracted, in order, from the item lines of its
own header-started group. -/
theorem C8_order_preservation (content : List Char) :
    (((parseContent content).map (fun e => e.title)).Sublist
      (((procLines content).filter isHdr).map
        (fun l => pyStripL (removeAll ("EPIC:".data) l)))) ∧
    (∀ e ∈ parseContent content, ∃ h body, isHdr h = true ∧
      (h :: body) ∈ (breakSections (procLines content)).2 ∧
      e.stories = body.filterMap lineStory) := by
  constructor
  · rw [parseContent_eq, ← breakSections_heads, List.map_map]
    apply map_filterMap_sublist
    intro g e hge
    rcases g with _ | ⟨h, body⟩
    · simp [mkEpicG] at hge
    · have hge' : (if (body.filterMap lineStory).isEmpty then none
          else some ({ title := pyStripL (removeAll ("EPIC:".data) h),
                       stories := body.filterMap lineStory } : Epic)) = some e := hge
      by_cases hemp : (body.filterMap lineStory).isEmpty
      · rw [if_pos hemp] at hge'
        simp at hge'
      · rw [if_neg hemp] at hge'
        have he2 : ({ title := pyStripL (removeAll ("EPIC:".data) h),
                      stories := body.filterMap lineStory } : Epic) = e := by
          simpa using hge'
        rw [← he2]
        rfl
  · intro e he
    rw [parseContent_eq] at he
    rw [List.mem_filterMap] at he
    obtain ⟨g, hg, hge⟩ := he
    obtain ⟨h, body, rfl, hhdr⟩ := breakSections_groups _ g hg
    refine ⟨h, body, hhdr, hg, ?_⟩
    have hge' : (if (body.filterMap lineStory).isEmpty then none
        else some ({ title := pyStripL (removeAll ("EPIC:".data) h),
                     stories := body.filterMap lineStory } : Epic)) = some e := hge
    by_cases hemp : (body.filterMap lineStory).isEmpty
    · rw [if_pos hemp] at hge'
      simp at hge'
    · rw [if_neg hemp] at hge'
      have he2 : ({ title := pyStripL (removeAll ("EPIC:".data) h),
                    stories := body.filterMap lineStory } : Epic) = e := by
        simpa using hge'
      rw [← he2]

